import Mathlib

/-!
# Verification of the bebopc.js invocation bridge

Shallow embedding of the core of `betwixt-labs/bebopc.js`
(`src/bebopc/index.ts` and `src/bebopc/worker.ts`): the multiplex file
codec, POSIX path resolution, the stderr diagnostic extractor and error
classifier, the output assembler, the command builder and the worker's
post-execution result handling.

JavaScript strings are modelled as `List Char` (`JStr`); JS `Map` objects
and JSON objects as association lists with `Map.set` update semantics.
-/

set_option maxHeartbeats 1000000

/-- JavaScript strings, modelled as lists of unicode scalar characters. -/
abbrev JStr := List Char

/-- Shorthand to write a `JStr` literal. -/
def jstr (s : String) : JStr := s.toList

/-- The JavaScript whitespace set: `\s` in a regexp, and the set trimmed by
`String.prototype.trim`. -/
def isWS (c : Char) : Bool :=
  c == ' ' || c == '\t' || c == '\n' || c == '\x0b' || c == '\x0c' || c == '\r' ||
  c == '\u00A0' || c == '\u1680' || decide (0x2000 ≤ c.toNat ∧ c.toNat ≤ 0x200A) ||
  c == '\u2028' || c == '\u2029' || c == '\u202F' || c == '\u205F' ||
  c == '\u3000' || c == '\uFEFF'

/-- JavaScript line terminators (`^`/`$` anchors with the `m` flag re-anchor
around these; `.` never matches them). -/
def isLT (c : Char) : Bool :=
  c == '\n' || c == '\r' || c == '\u2028' || c == '\u2029'

/-- Remove trailing JS whitespace. -/
def trimEndL (cs : JStr) : JStr := (cs.reverse.dropWhile isWS).reverse

/-- `String.prototype.trim`: strip leading and trailing JS whitespace. -/
def jsTrim (cs : JStr) : JStr := trimEndL (cs.dropWhile isWS)

/-- `input.split(/\r?\n/g)`: split at each `\n`, also consuming an
immediately preceding `\r`. -/
def splitLinesL : JStr → List JStr
  | [] => [[]]
  | '\r' :: '\n' :: rest => [] :: splitLinesL rest
  | '\n' :: rest => [] :: splitLinesL rest
  | c :: rest =>
    match splitLinesL rest with
    | l :: ls => (c :: l) :: ls
    | [] => [[c]]

/-- `lines.join("\n")`. -/
def joinNL : List JStr → JStr
  | [] => []
  | [l] => l
  | l :: ls => l ++ '\n' :: joinNL ls

/-- `a.endsWith(b)` on JS strings. -/
def strEndsWith (s suf : JStr) : Bool := suf.reverse.isPrefixOf s.reverse

/-- Case-insensitive literal match (ASCII canonicalization, as the `i` flag
without `u` performs for an ASCII pattern): on success returns the remainder
of the input after the pattern. -/
def ciStarts : JStr → JStr → Option JStr
  | [], cs => some cs
  | _ :: _, [] => none
  | p :: ps, c :: cs => if p.toLower = c.toLower then ciStarts ps cs else none

/-- The trailing `\s*(.+)$` of the filename marker regexp, applied to the text
after `@filename:`.  `\s*` munches greedily (possibly across line
terminators), then backtracks just enough for `.+` to match at least one
non-terminator character; the capture is the maximal run of non-terminator
characters from that point, after which `$` holds. -/
def tailCapture (rest : JStr) : Option JStr :=
  let after := rest.dropWhile isWS
  if after ≠ [] then
    some (after.takeWhile (fun c => ¬ isLT c))
  else
    match (rest.takeWhile isWS).reverse.dropWhile isLT with
    | [] => none
    | c :: _ => some [c]

/-- Attempt the body of `/^\s*\/\/\s*@filename:\s*(.+)$/i` at the current
position (the `^` anchor is the caller's responsibility); returns the
captured group on success.  The two inner `\s*` are exact maximal munch
since neither `/` nor `@` is whitespace. -/
def markerAt (cs : JStr) : Option JStr :=
  match cs.dropWhile isWS with
  | '/' :: '/' :: rest =>
    match ciStarts (jstr "@filename:") (rest.dropWhile isWS) with
    | some rest2 => tailCapture rest2
    | none => none
  | _ => none

/-- Scan the tail of the input for a line start (the position after any line
terminator) and try the marker pattern there; used by `markerScan` below. -/
def msGo : JStr → Option JStr
  | [] => none
  | c :: rest =>
    if isLT c then
      match markerAt rest with
      | some cap => some cap
      | none => msGo rest
    else msGo rest

/-- First match of the filename marker regexp (global + multiline flags,
`lastIndex` reset before use): with `m`, `^` anchors at position 0 and after
every line terminator; positions are tried left to right and the capture of
the leftmost match is returned. -/
def markerScan (cs : JStr) : Option JStr :=
  match markerAt cs with
  | some cap => some cap
  | none => msGo cs

/-- Split a `JStr` at every `/` (the segment scan of Node's
`normalizeString`). -/
def splitOnSlash : JStr → List JStr
  | [] => [[]]
  | '/' :: rest => [] :: splitOnSlash rest
  | c :: rest =>
    match splitOnSlash rest with
    | l :: ls => (c :: l) :: ls
    | [] => [[c]]

/-- Join segments with `/`. -/
def joinSlash : List JStr → JStr
  | [] => []
  | [s] => s
  | s :: ss => s ++ '/' :: joinSlash ss

/-- Node `normalizeString` with `allowAboveRoot = false`: drop empty and `.`
segments, make `..` pop the previous segment (or vanish at the root). -/
def normSegs : List JStr → List JStr → List JStr
  | [], acc => acc.reverse
  | s :: rest, acc =>
    if s = [] ∨ s = jstr "." then normSegs rest acc
    else if s = jstr ".." then normSegs rest acc.tail
    else normSegs rest (s :: acc)

/-- `path.posix.resolve("/", p)`: root the path at `/` and normalize it. -/
def resolveSlash (p : JStr) : JStr :=
  '/' :: joinSlash (normSegs (splitOnSlash p) [])

/-- `path.posix.dirname`, following the Node implementation: scan from the
end, skip trailing slashes, then cut at the next slash (never looking at
index 0); `//x` is the special `//` case. -/
def dirname (p : JStr) : JStr :=
  match p with
  | [] => jstr "."
  | p0 :: tl =>
    let hasRoot := p0 = '/'
    let r := ((p0 :: tl).reverse).dropLast
    let r1 := r.dropWhile (· = '/')
    let r2 := r1.dropWhile (· ≠ '/')
    match r2 with
    | [] => if hasRoot then jstr "/" else jstr "."
    | _ :: rest => if hasRoot ∧ rest = [] then jstr "//" else p0 :: rest.reverse

/-- `Map.prototype.set` on an association list: update the value in place if
the key is present, otherwise append the new entry. -/
def setEntry {α : Type} (m : List (JStr × α)) (k : JStr) (v : α) : List (JStr × α) :=
  if m.any (fun e => e.1 = k) then
    m.map (fun e => if e.1 = k then (k, v) else e)
  else m ++ [(k, v)]

/-- `Map.prototype.get`, `none` for a missing key. -/
def getEntry {α : Type} (m : List (JStr × α)) (k : JStr) : Option α :=
  (m.find? (fun e => e.1 = k)).map (fun e => e.2)

/-- JSON values, as produced by `JSON.parse`.  Numbers keep their source
literal (the claims never compare numeric values across different
spellings); objects are association lists in insertion order with
last-write-wins duplicate handling. -/
inductive JsonV where
  | null : JsonV
  | bool (b : Bool) : JsonV
  | num (lit : JStr) : JsonV
  | str (s : JStr) : JsonV
  | arr (elems : List JsonV) : JsonV
  | obj (fields : List (JStr × JsonV)) : JsonV

/-- The JSON value of an integer number literal (e.g. an exit code). -/
def jnum (i : Int) : JsonV := .num (jstr (toString i))

/-- Property lookup `j[k]` (`none` = `undefined`). -/
def objGet (j : JsonV) (k : JStr) : Option JsonV :=
  match j with
  | .obj fields => (fields.find? (fun e => e.1 = k)).map (fun e => e.2)
  | _ => none

/-- The JS `k in j` check for a parsed object. -/
def objHas (j : JsonV) (k : JStr) : Bool :=
  match j with
  | .obj fields => fields.any (fun e => e.1 = k)
  | _ => false

/-- A structured compiler error (`CompilerError` in the source).  Field
values originate either from string/number literals or from arbitrary
parsed JSON, so they are modelled as JSON values; the optional host-level
`context` argument of the constructor is not modelled. -/
structure CompilerErrorE where
  severity : JsonV
  message : JsonV
  errorCode : JsonV
  span : Option JsonV

/-- `new CompilerError("error", msg, code)` with literal arguments. -/
def litError (msg : String) (code : Int) : CompilerErrorE :=
  ⟨.str (jstr "error"), .str (jstr msg), jnum code, none⟩

/-- `finalizeFile`: store the collected lines (joined with `\n`) under the
current filename, if one is open. -/
def finalizePrev (cur : Option JStr) (acc : List JStr) (files : List (JStr × JStr)) :
    List (JStr × JStr) :=
  match cur with
  | some k => setEntry files k (joinNL acc)
  | none => files

/-- The line-by-line decode loop of `createFileMap`.  State: the current
filename (absolute, normalized), the lines collected for it, and the file
map built so far; a marker line finalizes the previous file and opens a new
one; lines before the first marker are dropped. -/
def fmLoop : List JStr → Option JStr → List JStr → List (JStr × JStr) → List (JStr × JStr)
  | [], cur, acc, files => finalizePrev cur acc files
  | line :: rest, cur, acc, files =>
    match markerScan line with
    | some cap =>
      fmLoop rest (some (resolveSlash cap)) [] (finalizePrev cur acc files)
    | none =>
      fmLoop rest cur (match cur with | some _ => acc ++ [line] | none => acc) files

/-- `createFileMap`: decode a multiplexed stream into a path-to-content map,
failing when the marker regexp does not match the input at all. -/
def createFileMap (input : JStr) : Except CompilerErrorE (List (JStr × JStr)) :=
  if (markerScan input).isSome then
    .ok (fmLoop (splitLinesL input) none [] [])
  else
    .error (litError "no input files found" 1)

/-- JSON source whitespace (`JSON.parse` accepts exactly these). -/
def isJsonWS (c : Char) : Bool :=
  c == ' ' || c == '\t' || c == '\n' || c == '\r'

/-- Skip JSON whitespace. -/
def skipJW (cs : JStr) : JStr := cs.dropWhile isJsonWS

/-- ASCII decimal digit. -/
def isDigit (c : Char) : Bool := '0' ≤ c && c ≤ '9'

/-- Hex digit value. -/
def hexVal (c : Char) : Option Nat :=
  if '0' ≤ c ∧ c ≤ '9' then some (c.toNat - '0'.toNat)
  else if 'a' ≤ c ∧ c ≤ 'f' then some (c.toNat - 'a'.toNat + 10)
  else if 'A' ≤ c ∧ c ≤ 'F' then some (c.toNat - 'A'.toNat + 10)
  else none

/-- Value of a `\uXXXX` escape. -/
def hex4 (a b c d : Char) : Option Nat :=
  match hexVal a, hexVal b, hexVal c, hexVal d with
  | some x, some y, some z, some w => some (((x * 16 + y) * 16 + z) * 16 + w)
  | _, _, _, _ => none

/-- JSON string body after the opening quote: returns the decoded content
and the rest after the closing quote.  Surrogate `\u` escape pairs combine
into one scalar; a lone surrogate escape is not representable as a `Char`
and is rejected here, and raw control characters are rejected as in
`JSON.parse`. -/
def jpString : JStr → Option (JStr × JStr)
  | [] => none
  | '"' :: rest => some ([], rest)
  | '\\' :: '"' :: t => (jpString t).map (fun p => ('"' :: p.1, p.2))
  | '\\' :: '\\' :: t => (jpString t).map (fun p => ('\\' :: p.1, p.2))
  | '\\' :: '/' :: t => (jpString t).map (fun p => ('/' :: p.1, p.2))
  | '\\' :: 'b' :: t => (jpString t).map (fun p => ('\x08' :: p.1, p.2))
  | '\\' :: 'f' :: t => (jpString t).map (fun p => ('\x0c' :: p.1, p.2))
  | '\\' :: 'n' :: t => (jpString t).map (fun p => ('\n' :: p.1, p.2))
  | '\\' :: 'r' :: t => (jpString t).map (fun p => ('\r' :: p.1, p.2))
  | '\\' :: 't' :: t => (jpString t).map (fun p => ('\t' :: p.1, p.2))
  | '\\' :: 'u' :: h1 :: h2 :: h3 :: h4 :: t =>
    match hex4 h1 h2 h3 h4 with
    | none => none
    | some n =>
      if 0xD800 ≤ n ∧ n ≤ 0xDBFF then
        match t with
        | '\\' :: 'u' :: k1 :: k2 :: k3 :: k4 :: t2 =>
          match hex4 k1 k2 k3 k4 with
          | some m =>
            if 0xDC00 ≤ m ∧ m ≤ 0xDFFF then
              (jpString t2).map (fun p =>
                (Char.ofNat (0x10000 + (n - 0xD800) * 0x400 + (m - 0xDC00)) :: p.1, p.2))
            else none
          | none => none
        | _ => none
      else if 0xDC00 ≤ n ∧ n ≤ 0xDFFF then none
      else (jpString t).map (fun p => (Char.ofNat n :: p.1, p.2))
  | '\\' :: _ => none
  | c :: t =>
    if c.toNat < 0x20 then none
    else (jpString t).map (fun p => (c :: p.1, p.2))

/-- Maximal digit run. -/
def jpDigits (cs : JStr) : JStr × JStr := (cs.takeWhile isDigit, cs.dropWhile isDigit)

/-- Optional exponent part of a JSON number. -/
def jpExp (lit : JStr) (cs : JStr) : Option (JStr × JStr) :=
  match cs with
  | 'e' :: t =>
    match t with
    | '+' :: t2 => (jpDigits t2).1.head?.elim none
        (fun _ => some (lit ++ 'e' :: '+' :: (jpDigits t2).1, (jpDigits t2).2))
    | '-' :: t2 => (jpDigits t2).1.head?.elim none
        (fun _ => some (lit ++ 'e' :: '-' :: (jpDigits t2).1, (jpDigits t2).2))
    | _ => (jpDigits t).1.head?.elim none
        (fun _ => some (lit ++ 'e' :: (jpDigits t).1, (jpDigits t).2))
  | 'E' :: t =>
    match t with
    | '+' :: t2 => (jpDigits t2).1.head?.elim none
        (fun _ => some (lit ++ 'E' :: '+' :: (jpDigits t2).1, (jpDigits t2).2))
    | '-' :: t2 => (jpDigits t2).1.head?.elim none
        (fun _ => some (lit ++ 'E' :: '-' :: (jpDigits t2).1, (jpDigits t2).2))
    | _ => (jpDigits t).1.head?.elim none
        (fun _ => some (lit ++ 'E' :: (jpDigits t).1, (jpDigits t).2))
  | _ => some (lit, cs)

/-- Optional fraction part then exponent. -/
def jpFrac (lit : JStr) (cs : JStr) : Option (JStr × JStr) :=
  match cs with
  | '.' :: t =>
    match jpDigits t with
    | ([], _) => none
    | (ds, r) => jpExp (lit ++ '.' :: ds) r
  | _ => jpExp lit cs

/-- JSON number literal (strict grammar: no leading zeros, no bare `.`):
returns the literal text and the rest. -/
def jpNumber (cs : JStr) : Option (JStr × JStr) :=
  let (neg, cs1) : JStr × JStr :=
    match cs with
    | '-' :: t => (['-'], t)
    | _ => ([], cs)
  match cs1 with
  | '0' :: t => jpFrac (neg ++ ['0']) t
  | c :: t =>
    if isDigit c then
      let (ds, r) := jpDigits t
      jpFrac (neg ++ c :: ds) r
    else none
  | [] => none

mutual

/-- One JSON value, fuelled ( fuel ≥ input length always suffices). -/
def jpVal : Nat → JStr → Option (JsonV × JStr)
  | 0, _ => none
  | fuel + 1, cs =>
    match cs with
    | '{' :: t =>
      (match skipJW t with
       | '}' :: r => some (.obj [], r)
       | _ => jpMembers fuel t [])
    | '[' :: t =>
      (match skipJW t with
       | ']' :: r => some (.arr [], r)
       | _ => jpElems fuel t [])
    | '"' :: t => (jpString t).map (fun p => (.str p.1, p.2))
    | 't' :: 'r' :: 'u' :: 'e' :: r => some (.bool true, r)
    | 'f' :: 'a' :: 'l' :: 's' :: 'e' :: r => some (.bool false, r)
    | 'n' :: 'u' :: 'l' :: 'l' :: r => some (.null, r)
    | c :: _ =>
      if c = '-' ∨ isDigit c then (jpNumber cs).map (fun p => (.num p.1, p.2)) else none
    | [] => none

/-- Members of a JSON object after `{` (at least one member); duplicate keys
follow assignment semantics (`setEntry`). -/
def jpMembers : Nat → JStr → List (JStr × JsonV) → Option (JsonV × JStr)
  | 0, _, _ => none
  | fuel + 1, cs, acc =>
    match skipJW cs with
    | '"' :: t =>
      match jpString t with
      | none => none
      | some (key, r1) =>
        match skipJW r1 with
        | ':' :: r2 =>
          match jpVal fuel (skipJW r2) with
          | none => none
          | some (v, r3) =>
            match skipJW r3 with
            | ',' :: r4 => jpMembers fuel r4 (setEntry acc key v)
            | '}' :: r4 => some (.obj (setEntry acc key v), r4)
            | _ => none
        | _ => none
    | _ => none

/-- Elements of a JSON array after `[` (at least one element). -/
def jpElems : Nat → JStr → List JsonV → Option (JsonV × JStr)
  | 0, _, _ => none
  | fuel + 1, cs, acc =>
    match jpVal fuel (skipJW cs) with
    | none => none
    | some (v, r1) =>
      match skipJW r1 with
      | ',' :: r2 => jpElems fuel r2 (acc ++ [v])
      | ']' :: r2 => some (.arr (acc ++ [v]), r2)
      | _ => none

end

/-- `JSON.parse`: a single value surrounded by optional whitespace, with the
whole input consumed. -/
def jsonParse (cs : JStr) : Option JsonV :=
  match jpVal (cs.length + 1) (skipJW cs) with
  | some (j, rest) => if skipJW rest = [] then some j else none
  | none => none

/-- The body of `/{[\S\s]*?}/`: everything from a `{` up to the nearest
following `}`, returning the inner text and the rest after that `}`. -/
def splitAtBrace : JStr → Option (JStr × JStr)
  | [] => none
  | '}' :: t => some ([], t)
  | c :: t => (splitAtBrace t).map (fun p => (c :: p.1, p.2))

/-- The global-search loop of `stdError.match(/{[\S\s]*?}/g)` (fuelled; one
unit per match found, so input length + 1 always suffices). -/
def bmGo : Nat → JStr → List JStr
  | 0, _ => []
  | fuel + 1, cs =>
    match cs.dropWhile (· ≠ '{') with
    | [] => []
    | _ :: rest =>
      match splitAtBrace rest with
      | none => []
      | some (inner, after) => ('{' :: (inner ++ ['}'])) :: bmGo fuel after

/-- All brace-delimited lazy matches in the text. -/
def braceMatches (cs : JStr) : List JStr := bmGo (cs.length + 1) cs

/-- `findErrorEntries`: JSON-parse every brace-delimited match, silently
dropping the ones that fail to parse. -/
def findErrorEntries (stdError : JStr) : List JsonV :=
  (braceMatches stdError).filterMap jsonParse

/-- `isCompilerException`: a non-null object value with `severity`,
`message` and `errorCode` fields. -/
def isCompilerException (j : JsonV) : Bool :=
  objHas j (jstr "severity") && objHas j (jstr "message") && objHas j (jstr "errorCode")

/-- The generic `CompilerError` carrying raw stderr text and the exit
code. -/
def genericErr (stdError : JStr) (exitCode : Int) : CompilerErrorE :=
  ⟨.str (jstr "error"), .str stdError, jnum exitCode, none⟩

/-- The typed `CompilerError` built from a shape-matching diagnostic
object. -/
def exceptionToError (j : JsonV) : CompilerErrorE :=
  ⟨(objGet j (jstr "severity")).getD .null,
   (objGet j (jstr "message")).getD .null,
   (objGet j (jstr "errorCode")).getD .null,
   objGet j (jstr "span")⟩

/-- `throwCompilerError`: the error thrown for a failed invocation — typed
from the last parsed object when the exit code is fatal (≥ 400) and that
object matches the exception shape, generic otherwise. -/
def throwCompilerError (stdError : JStr) (exitCode : Int) : CompilerErrorE :=
  let errorEntries := findErrorEntries stdError
  match errorEntries.getLast? with
  | some last =>
    if 400 ≤ exitCode ∧ isCompilerException last then exceptionToError last
    else genericErr stdError exitCode
  | none => genericErr stdError exitCode

/-- `parseStandardError`: classify stderr of a failed build — below the
fatal threshold return the first parsed object when it has `warnings` and
`errors`; otherwise throw typed from the last parsed object when it matches
the exception shape, generic otherwise. -/
def parseStandardError (stdError : JStr) (exitCode : Int) : Except CompilerErrorE JsonV :=
  let errorEntries := findErrorEntries stdError
  match errorEntries with
  | [] => .error (genericErr stdError exitCode)
  | e0 :: _ =>
    if exitCode < 400 ∧ objHas e0 (jstr "warnings") ∧ objHas e0 (jstr "errors") then
      .ok e0
    else
      match errorEntries.getLast? with
      | some last =>
        if isCompilerException last then .error (exceptionToError last)
        else .error (genericErr stdError exitCode)
      | none => .error (genericErr stdError exitCode)

/-- One produced output file in a `CompilerOutput`. -/
structure GeneratedFile where
  name : JStr
  content : JStr
  generator : JStr
  auxiliaryFile : Option (JStr × JStr)

/-- A `CompilerOutput`: `warnings`/`errors` hold whatever the parsed stderr
JSON carried (`none` = the field was absent, i.e. `undefined`); `results`
is absent on the no-emit path. -/
structure CompilerOutputE where
  warnings : Option JsonV
  errors : Option JsonV
  results : Option (List GeneratedFile)

/-- Extension info of one generator alias. -/
structure ExtInfo where
  ext : JStr
  auxiliaryExt : Option JStr

/-- The fixed alias → extension lookup table (`extLookupTable`). -/
def extLookup (aliasName : JStr) : Option ExtInfo :=
  if aliasName = jstr "cpp" then some ⟨jstr "cpp", some (jstr "hpp")⟩
  else if aliasName = jstr "cs" then some ⟨jstr "cs", none⟩
  else if aliasName = jstr "dart" then some ⟨jstr "dart", none⟩
  else if aliasName = jstr "py" then some ⟨jstr "py", none⟩
  else if aliasName = jstr "rust" then some ⟨jstr "rs", none⟩
  else if aliasName = jstr "ts" then some ⟨jstr "ts", none⟩
  else none

/-- Success of `resolvedOutFile.match(/\.([^.]+)$/)`: the path ends in a
dot followed by at least one non-dot character. -/
def extMatch (s : JStr) : Bool :=
  (s.reverse.takeWhile (· ≠ '.')) ≠ [] && (s.reverse.dropWhile (· ≠ '.')) ≠ []

/-- One requested generator (`GeneratorConfig` has exactly one alias key;
only the fields the output assembler reads are modelled). -/
structure GenConfigE where
  aliasName : JStr
  outFile : JStr
deriving DecidableEq

/-- The per-generator loop of `createCompilerOutput`: resolve the declared
output path, check its extension, look the alias up in the fixed table,
suffix-match the primary produced file, attach an auxiliary file from the
directory of the *resolved* output path when the alias declares an
auxiliary extension, and fail on any unmet step. -/
def ccoGo (files : List (JStr × JStr)) : List GenConfigE → Except CompilerErrorE (List GeneratedFile)
  | [] => .ok []
  | config :: rest =>
    let resolvedOutFile := resolveSlash config.outFile
    if ¬ extMatch resolvedOutFile then
      .error (litError "unable to determine extension" 1)
    else
      match extLookup config.aliasName with
      | none => .error (litError "unable to lookup extension" 1)
      | some extInfo =>
        match (files.map Prod.fst).find? (fun f => strEndsWith f resolvedOutFile) with
        | none => .error (litError "unable to find output file" 1)
        | some outFileMatch =>
          let base : GeneratedFile :=
            ⟨outFileMatch, (getEntry files outFileMatch).getD [], config.aliasName, none⟩
          match extInfo.auxiliaryExt with
          | none => (ccoGo files rest).map (fun rs => base :: rs)
          | some auxExt =>
            let outFileDir := dirname resolvedOutFile
            match (files.map Prod.fst).find?
                (fun f => strEndsWith f ('.' :: auxExt) && dirname f = outFileDir) with
            | some auxMatch =>
              (ccoGo files rest).map (fun rs =>
                { base with auxiliaryFile := some (auxMatch, (getEntry files auxMatch).getD []) } :: rs)
            | none => .error (litError "unable to find auxiliary file" 1)

/-- `createCompilerOutput`: fail fast with no generators; parse the whole
raw stderr (if non-empty) as one JSON document for `warnings`/`errors`,
turning a parse failure into a compiler error; then run the per-generator
matching loop. -/
def createCompilerOutput (files : List (JStr × JStr)) (configs : List GenConfigE)
    (stdError : JStr) : Except CompilerErrorE CompilerOutputE :=
  if configs = [] then
    .error (litError "no generators specified" 1)
  else
    let we : Except CompilerErrorE (Option JsonV × Option JsonV) :=
      if stdError = [] then .ok (some (.arr []), some (.arr []))
      else
        match jsonParse stdError with
        | none => .error (litError "error while parsing standard error" 1)
        | some diagnostics =>
          .ok (objGet diagnostics (jstr "warnings"), objGet diagnostics (jstr "errors"))
    match we with
    | .error e => .error e
    | .ok (warnings, errors) =>
      match ccoGo files configs with
      | .error e => .error e
      | .ok results => .ok ⟨warnings, errors, some results⟩

/-- A flag value: a single token or a list of tokens. -/
inductive FlagValueE where
  | single (s : JStr) : FlagValueE
  | many (ss : List JStr) : FlagValueE

/-- One operation on the command builder. -/
inductive CmdOp where
  | flag (name : JStr) (value : Option FlagValueE) : CmdOp
  | subCommand (name : JStr) : CmdOp

/-- Tokens one builder operation appends to the shared argument array:
`addFlag` pushes the flag then its value token(s), `addSubCommand` pushes
the subcommand token. -/
def opTokens : CmdOp → List JStr
  | .flag name none => [name]
  | .flag name (some (.single v)) => [name, v]
  | .flag name (some (.many vs)) => name :: vs
  | .subCommand name => [name]

/-- Sequential use of the builder returned by `createCommandBuilder`: each
operation appends to the same argument array (the sub-builder returned by
`addSubCommand` shares it). -/
def runOps (args : List JStr) (ops : List CmdOp) : List JStr :=
  ops.foldl (fun acc op => acc ++ opTokens op) args

/-- `createCommandBuilder().…​.build()`: the arguments start as
`["bebopc"]`. -/
def commandBuild (ops : List CmdOp) : List JStr :=
  runOps [jstr "bebopc"] ops

/-- The raw result of one sandboxed run (`WorkerResponse`). -/
structure WorkerResponse where
  exitCode : Int
  stdOut : JStr
  stdErr : JStr

/-- How the sandboxed execution terminated: a normal return from
`wasi.start`, a `WASIExitError` with its (possibly absent) code, or any
other thrown fault with its `toString()` text. -/
inductive ExecOutcome where
  | normal : ExecOutcome
  | exitError (code : Option Int) : ExecOutcome
  | fault (msg : JStr) : ExecOutcome

/-- What `runBebopc` actually returns: a `WorkerResponse`, or — on the
non-`WASIExitError` catch branch — the fault's string itself. -/
inductive WorkerRet where
  | response (r : WorkerResponse) : WorkerRet
  | raw (s : JStr) : WorkerRet

/-- The worker's multiplex encoding of produced files: for each file a
marker line, the content and a blank separator, with the final output
trimmed. -/
def multiplexEncode (entries : List (JStr × JStr)) : JStr :=
  jsTrim (entries.foldl
    (fun output e => output ++ jstr "// @filename: " ++ e.1 ++ '\n' :: e.2 ++ jstr "\n\n") [])

/-- `runBebopc` in the worker, as a function of the execution outcome: the
exit code is 0 on normal return, the error's code (or 127 when absent) on a
`WASIExitError`, and any other fault returns its string form.  On exit 0 in
a file-producing mode (`build` without `--stdout`, or `--init`) the files
produced by the run (walk order, minus the seeded inputs) are re-encoded
into stdout. -/
def runBebopcResult (files : List (JStr × JStr)) (args : List JStr)
    (outcome : ExecOutcome) (stdout stderr : JStr)
    (produced : List (JStr × JStr)) : WorkerRet :=
  match outcome with
  | .fault msg => .raw msg
  | .normal => runPost files args 0 stdout stderr produced
  | .exitError code => runPost files args (code.getD 127) stdout stderr produced
where
  runPost (files : List (JStr × JStr)) (args : List JStr) (exitCode : Int)
      (stdout stderr : JStr) (produced : List (JStr × JStr)) : WorkerRet :=
    if exitCode ≠ 0 then .response ⟨exitCode, stdout, stderr⟩
    else if (args.contains (jstr "build") && ¬ args.contains (jstr "--stdout"))
        || args.contains (jstr "--init") then
      .response ⟨0,
        multiplexEncode (produced.filter (fun p => ¬ (files.map Prod.fst).contains p.1)),
        stderr⟩
    else .response ⟨0, stdout, stderr⟩

/-- Build options (only the fields the post-invocation handling reads). -/
structure BuildOptionsE where
  noEmit : Bool
  writeToStdOut : Bool

/-- An error propagating out of `build`: a thrown `CompilerError`, or the
raw `SyntaxError` of a direct `JSON.parse` call (write-to-stdout path). -/
inductive ThrownError where
  | compiler (e : CompilerErrorE) : ThrownError
  | hostJsonError : ThrownError

/-- `build`'s result: an assembled `CompilerOutput`, or a parsed JSON value
returned as-is (cast) by the diagnostic paths. -/
inductive BuildOutcome where
  | out (o : CompilerOutputE) : BuildOutcome
  | raw (j : JsonV) : BuildOutcome

/-- The post-invocation logic of `build`, as a function of the worker
response: nonzero exit goes to `parseStandardError`; no-emit returns empty
diagnostics when stderr is empty, else `parseStandardError`; empty stdout
throws via `throwCompilerError`; write-to-stdout parses stdout directly and
checks its shape; otherwise stdout is decoded as a file map and assembled
with the requested (or config-derived) generators. -/
def buildHandle (generators : Option (List GenConfigE)) (configGens : List GenConfigE)
    (options : BuildOptionsE) (response : WorkerResponse) :
    Except ThrownError BuildOutcome :=
  if response.exitCode ≠ 0 then
    match parseStandardError response.stdErr response.exitCode with
    | .ok j => .ok (.raw j)
    | .error e => .error (.compiler e)
  else if options.noEmit then
    if response.stdErr = [] then .ok (.out ⟨some (.arr []), some (.arr []), none⟩)
    else
      match parseStandardError response.stdErr response.exitCode with
      | .ok j => .ok (.raw j)
      | .error e => .error (.compiler e)
  else if response.stdOut = [] then
    .error (.compiler (throwCompilerError response.stdErr response.exitCode))
  else if options.writeToStdOut then
    match jsonParse response.stdOut with
    | none => .error .hostJsonError
    | some compilerOutput =>
      if ¬ (objHas compilerOutput (jstr "warnings")
          && objHas compilerOutput (jstr "errors")
          && objHas compilerOutput (jstr "results")) then
        .error (.compiler ⟨.str (jstr "error"), .str response.stdOut, jnum response.exitCode, none⟩)
      else .ok (.raw compilerOutput)
  else
    match createFileMap response.stdOut with
    | .error e => .error (.compiler e)
    | .ok emittedFiles =>
      match createCompilerOutput emittedFiles (generators.getD configGens) response.stdErr with
      | .error e => .error (.compiler e)
      | .ok o => .ok (.out o)

/-- The finalization sequence of the decode loop: every `(path, content)`
write it performs, in order (specification companion of `fmLoop`, which
folds these writes into the map). -/
def fmWrites : List JStr → Option JStr → List JStr → List (JStr × JStr)
  | [], cur, acc =>
    match cur with
    | some k => [(k, joinNL acc)]
    | none => []
  | line :: rest, cur, acc =>
    match markerScan line with
    | some cap =>
      (match cur with
       | some k => [(k, joinNL acc)]
       | none => []) ++ fmWrites rest (some (resolveSlash cap)) []
    | none =>
      fmWrites rest cur (match cur with | some _ => acc ++ [line] | none => acc)

/-- The last value written for a key in a write sequence. -/
def lastAssign (k : JStr) (ws : List (JStr × JStr)) : Option JStr :=
  (ws.reverse.find? (fun e => e.1 = k)).map (fun e => e.2)

/-- An absolute normalized POSIX path: starts with `/`, is a fixed point of
resolution against `/`, and has no empty, `.` or `..` segments. -/
def isNormalizedAbs (k : JStr) : Prop :=
  k.head? = some '/' ∧ resolveSlash k = k ∧
  (k = jstr "/" ∨ ∀ s ∈ splitOnSlash (k.drop 1), s ≠ [] ∧ s ≠ jstr "." ∧ s ≠ jstr "..")

/-- The marker line the worker writes for a produced file. -/
def markerLine (k : JStr) : JStr := jstr "// @filename: " ++ k

/-- The raw (untrimmed) bytes one produced file contributes to the
multiplexed stream. -/
def blockRaw (e : JStr × JStr) : JStr := markerLine e.1 ++ '\n' :: e.2 ++ jstr "\n\n"

/-- The raw multiplexed stream before trimming. -/
def rawAll (es : List (JStr × JStr)) : JStr := (es.map blockRaw).flatten

/-- Last character (if any) is not JS whitespace. -/
def lastNonWS (s : JStr) : Prop := s.reverse.head?.elim False (fun c => isWS c = false)

/-- Conditions on a path under which its marker line decodes back to it:
it is a fixed point of resolution (hence absolute and normalized), contains
no line terminator, and does not end in whitespace (which the final trim
could eat). -/
def pathOk (k : JStr) : Prop :=
  resolveSlash k = k ∧ (∀ c ∈ k, isLT c = false) ∧ lastNonWS k

/-- Conditions on a content under which the codec round-trips it: no
carriage returns (the decoder's line split folds `\r\n` to `\n`), no line
the marker pattern matches, and no trailing whitespace (for the final
block's trim) unless empty. -/
def contentOk (c : JStr) : Prop :=
  ('\r' ∉ c) ∧ (∀ l ∈ splitLinesL c, markerScan l = none) ∧ (c = [] ∨ lastNonWS c)

/-- What decoding the encoded stream actually returns: every entry but the
last gains one trailing newline (the blank separator line is folded into
the preceding file's content); the last block is protected by the final
trim. -/
def appendNL : List (JStr × JStr) → List (JStr × JStr)
  | [] => []
  | [e] => [e]
  | e :: es => (e.1, e.2 ++ ['\n']) :: appendNL es

/-- The lines a non-final block contributes to the split stream: its marker
line, its content's lines, and the blank separator line. -/
def fullBlockLines (e : JStr × JStr) : List JStr :=
  markerLine e.1 :: splitLinesL e.2 ++ [[]]

/-- The lines the final (trimmed) block contributes. -/
def lastBlockLines (e : JStr × JStr) : List JStr :=
  markerLine e.1 :: (if e.2 = [] then [] else splitLinesL e.2)

/-- Line decomposition of the whole trimmed stream. -/
def streamLines : List (JStr × JStr) → List JStr
  | [] => []
  | [e] => lastBlockLines e
  | e :: es => fullBlockLines e ++ streamLines es

/-- `lastNonWS` is decidable (used to evaluate the round-trip conditions on
concrete inputs). -/
instance lastNonWS_decidable (s : JStr) : Decidable (lastNonWS s) :=
  match h : s.reverse.head? with
  | none => isFalse (by unfold lastNonWS; rw [h]; exact fun hf => hf)
  | some c => decidable_of_iff (isWS c = false) (by unfold lastNonWS; rw [h]; exact Iff.rfl)

instance pathOk_decidable (k : JStr) : Decidable (pathOk k) := by
  unfold pathOk; infer_instance

instance contentOk_decidable (c : JStr) : Decidable (contentOk c) := by
  unfold contentOk; infer_instance

/-- Sequential builder use appends each operation's tokens in order. -/
theorem runOps_eq (ops : List CmdOp) : ∀ args : List JStr,
    runOps args ops = args ++ (ops.map opTokens).flatten := by
  induction ops with
  | nil => intro args; simp [runOps]
  | cons op rest ih =>
    intro args
    simp only [runOps, List.foldl_cons, List.map_cons, List.flatten_cons]
    have := ih (args ++ opTokens op)
    simp only [runOps] at this
    rw [this, List.append_assoc]

/-- C7: `addFlag("--config","x")` then `addSubCommand("build")` then
`addFlag("--no-emit")` then `build()` yields exactly
`["bebopc","--config","x","build","--no-emit"]`; in general, operations
before a subcommand produce tokens before the subcommand token, and flags
added on the returned sub-builder produce their tokens after it. -/
theorem claim7_command_builder :
    commandBuild [CmdOp.flag (jstr "--config") (some (.single (jstr "x"))),
        CmdOp.subCommand (jstr "build"), CmdOp.flag (jstr "--no-emit") none] =
      [jstr "bebopc", jstr "--config", jstr "x", jstr "build", jstr "--no-emit"] ∧
    ∀ (pre post : List CmdOp) (s : JStr),
      commandBuild (pre ++ CmdOp.subCommand s :: post) =
        commandBuild pre ++ s :: (post.map opTokens).flatten := by
  refine ⟨rfl, ?_⟩
  intro pre post s
  simp only [commandBuild, runOps_eq, List.map_append, List.map_cons,
    List.flatten_append, List.flatten_cons, opTokens]
  simp [List.append_assoc]

/-- C3: when the sandboxed execution ends in a fault that is not a
`WASIExitError` (so carries no exit code), `runBebopc` does not produce an
`InvocationResult` with exit code 127 — it returns the fault's string
itself (the `return (e as any).toString()` branch), which is never a
`WorkerResponse`. -/
theorem claim3_fault_returns_string :
    runBebopcResult [] [jstr "bebopc"] (.fault (jstr "RuntimeError: unreachable"))
        [] (jstr "partial stderr") [] = .raw (jstr "RuntimeError: unreachable") ∧
    (∀ r : WorkerResponse,
      runBebopcResult [] [jstr "bebopc"] (.fault (jstr "RuntimeError: unreachable"))
        [] (jstr "partial stderr") [] ≠ .response r) ∧
    runBebopcResult [] [jstr "bebopc"] (.exitError none) [] (jstr "partial stderr") [] =
      .response ⟨127, [], jstr "partial stderr"⟩ := by
  refine ⟨rfl, ?_, rfl⟩
  intro r h
  exact WorkerRet.noConfusion h

/-- On a fatal exit code, `parseStandardError` reduces to the last-entry
classification (the soft-failure branch is dead). -/
theorem parseStandardError_fatal (s : JStr) (ec : Int) (hlt : ¬ ec < 400) :
    parseStandardError s ec =
      match (findErrorEntries s).getLast? with
      | some last =>
        if isCompilerException last = true then Except.error (exceptionToError last)
        else Except.error (genericErr s ec)
      | none => Except.error (genericErr s ec) := by
  simp only [parseStandardError]
  cases hent : findErrorEntries s with
  | nil => rfl
  | cons e0 rest =>
    exact if_neg (fun hcon => hlt hcon.1)

/-- `throwCompilerError` unfolded to the last-entry classification. -/
theorem throwCompilerError_eq (s : JStr) (ec : Int) :
    throwCompilerError s ec =
      match (findErrorEntries s).getLast? with
      | some last =>
        if 400 ≤ ec ∧ isCompilerException last = true then exceptionToError last
        else genericErr s ec
      | none => genericErr s ec := by
  simp only [throwCompilerError]

/-- C2 (amended): on a fatal exit code (≥ 400), both classifiers consult
only the **last** JSON object parsed out of stderr: when it matches the
exception shape they raise the typed compiler error built from it, and
otherwise — even if an earlier parsed object matches — they raise the
generic error carrying the raw stderr text and the exit code. -/
theorem claim2_error_classification (stdError : JStr) (exitCode : Int)
    (hec : 400 ≤ exitCode) :
    (∀ last, (findErrorEntries stdError).getLast? = some last →
      (isCompilerException last = true →
        parseStandardError stdError exitCode = .error (exceptionToError last) ∧
        throwCompilerError stdError exitCode = exceptionToError last) ∧
      (isCompilerException last = false →
        parseStandardError stdError exitCode = .error (genericErr stdError exitCode) ∧
        throwCompilerError stdError exitCode = genericErr stdError exitCode)) ∧
    ((findErrorEntries stdError).getLast? = none →
      parseStandardError stdError exitCode = .error (genericErr stdError exitCode) ∧
      throwCompilerError stdError exitCode = genericErr stdError exitCode) := by
  have hlt : ¬ exitCode < 400 := by omega
  constructor
  · intro last hlast
    constructor
    · intro hexc
      constructor
      · rw [parseStandardError_fatal stdError exitCode hlt, hlast]
        simp [hexc]
      · rw [throwCompilerError_eq stdError exitCode, hlast]
        exact if_pos ⟨hec, hexc⟩
    · intro hexc
      constructor
      · rw [parseStandardError_fatal stdError exitCode hlt, hlast]
        simp [hexc]
      · rw [throwCompilerError_eq stdError exitCode, hlast]
        exact if_neg (fun hcon => by rw [hexc] at hcon; exact Bool.noConfusion hcon.2)
  · intro hlast
    constructor
    · rw [parseStandardError_fatal stdError exitCode hlt, hlast]
    · rw [throwCompilerError_eq stdError exitCode, hlast]

/-- Witness for C2: the spec's own example — stderr with prose then one
shape-matching JSON object, exit code 400 — raises the typed error with
message `bad` and code `12`. -/
theorem claim2_error_classification_witness :
    parseStandardError
        (jstr "warning: foo\n\x7b\"severity\":\"error\",\"message\":\"bad\",\"errorCode\":12\x7d") 400 =
      .error (exceptionToError (.obj [(jstr "severity", .str (jstr "error")),
        (jstr "message", .str (jstr "bad")), (jstr "errorCode", .num (jstr "12"))])) ∧
    throwCompilerError
        (jstr "warning: foo\n\x7b\"severity\":\"error\",\"message\":\"bad\",\"errorCode\":12\x7d") 400 =
      exceptionToError (.obj [(jstr "severity", .str (jstr "error")),
        (jstr "message", .str (jstr "bad")), (jstr "errorCode", .num (jstr "12"))]) :=
  (claim2_error_classification
    (jstr "warning: foo\n\x7b\"severity\":\"error\",\"message\":\"bad\",\"errorCode\":12\x7d") 400
    (by omega)).1
    (.obj [(jstr "severity", .str (jstr "error")), (jstr "message", .str (jstr "bad")),
      (jstr "errorCode", .num (jstr "12"))]) rfl |>.1 rfl

/-- Counterexample to C2 as frozen: stderr whose *first* parsed object
matches the exception shape but whose *last* does not.  The claim predicts
the typed error built from the matching object; the code raises the generic
error instead (both classifiers look only at the last parsed object). -/
theorem claim2_error_classification_counterexample :
    ((findErrorEntries (jstr "\x7b\"severity\":\"error\",\"message\":\"bad\",\"errorCode\":12\x7d\x7b\"x\":1\x7d")).any
        isCompilerException = true) ∧
    ((findErrorEntries (jstr "\x7b\"severity\":\"error\",\"message\":\"bad\",\"errorCode\":12\x7d\x7b\"x\":1\x7d")).getLast?
      = some (.obj [(jstr "x", .num (jstr "1"))])) ∧
    (isCompilerException (.obj [(jstr "x", .num (jstr "1"))]) = false) ∧
    parseStandardError (jstr "\x7b\"severity\":\"error\",\"message\":\"bad\",\"errorCode\":12\x7d\x7b\"x\":1\x7d") 400 =
      .error (genericErr (jstr "\x7b\"severity\":\"error\",\"message\":\"bad\",\"errorCode\":12\x7d\x7b\"x\":1\x7d") 400) ∧
    throwCompilerError (jstr "\x7b\"severity\":\"error\",\"message\":\"bad\",\"errorCode\":12\x7d\x7b\"x\":1\x7d") 400 =
      genericErr (jstr "\x7b\"severity\":\"error\",\"message\":\"bad\",\"errorCode\":12\x7d\x7b\"x\":1\x7d") 400 ∧
    genericErr (jstr "\x7b\"severity\":\"error\",\"message\":\"bad\",\"errorCode\":12\x7d\x7b\"x\":1\x7d") 400 ≠
      exceptionToError (.obj [(jstr "severity", .str (jstr "error")),
        (jstr "message", .str (jstr "bad")), (jstr "errorCode", .num (jstr "12"))]) := by
  refine ⟨rfl, rfl, rfl, rfl, rfl, ?_⟩
  intro h
  have hmsg := congrArg CompilerErrorE.message h
  have hmsg2 : JsonV.str (jstr "\x7b\"severity\":\"error\",\"message\":\"bad\",\"errorCode\":12\x7d\x7b\"x\":1\x7d") =
      JsonV.str (jstr "bad") := hmsg
  injection hmsg2 with hs
  exact absurd hs (by decide)

/-- C5: on a failed build whose exit code is nonzero but below the fatal
threshold, when stderr yields at least one parsed JSON object and the
first one carries both `warnings` and `errors` fields, `build` returns that
object as the `CompilerOutput` instead of throwing. -/
theorem claim5_soft_failure_output (generators : Option (List GenConfigE))
    (configGens : List GenConfigE) (options : BuildOptionsE)
    (response : WorkerResponse) (e0 : JsonV) (rest : List JsonV)
    (hne : response.exitCode ≠ 0) (hlt : response.exitCode < 400)
    (hent : findErrorEntries response.stdErr = e0 :: rest)
    (hw : objHas e0 (jstr "warnings") = true) (he : objHas e0 (jstr "errors") = true) :
    buildHandle generators configGens options response = .ok (.raw e0) := by
  simp only [buildHandle, if_pos hne]
  have : parseStandardError response.stdErr response.exitCode = .ok e0 := by
    simp only [parseStandardError]
    rw [hent]
    exact if_pos ⟨hlt, hw, he⟩
  rw [this]

/-- Witness for C5: exit code 2 with stderr
`{"warnings":[],"errors":[]}` makes `build` return the parsed object. -/
theorem claim5_soft_failure_output_witness :
    buildHandle none [] ⟨false, false⟩ ⟨2, [], jstr "\x7b\"warnings\":[],\"errors\":[]\x7d"⟩ =
      .ok (.raw (.obj [(jstr "warnings", .arr []), (jstr "errors", .arr [])])) :=
  claim5_soft_failure_output none [] ⟨false, false⟩
    ⟨2, [], jstr "\x7b\"warnings\":[],\"errors\":[]\x7d"⟩
    (.obj [(jstr "warnings", .arr []), (jstr "errors", .arr [])]) []
    (by decide) (by decide) rfl rfl rfl

/-- C8 (amended): whenever the multiline marker regexp finds no match in
the whole input — in particular on every input with no `@filename:` marker
at all, such as the encoding of an empty file map — `createFileMap` throws
the `no input files found` error.  (The whole-input test can, however,
succeed across line boundaries even when no single line matches; see the
counterexample.) -/
theorem claim8_no_marker_error (input : JStr) (h : markerScan input = none) :
    createFileMap input = .error (litError "no input files found" 1) := by
  simp only [createFileMap, h]
  rfl

/-- Witness for C8: plain text and the empty encoding both fail with the
`no input files found` error. -/
theorem claim8_no_marker_error_witness :
    createFileMap (jstr "hello") = .error (litError "no input files found" 1) ∧
    createFileMap (multiplexEncode []) = .error (litError "no input files found" 1) :=
  ⟨claim8_no_marker_error (jstr "hello") rfl,
   claim8_no_marker_error (multiplexEncode []) rfl⟩

/-- Counterexample to C8 as frozen: `"// @filename:\nfoo"` contains no line
matching the marker pattern (the first line has nothing after the colon),
yet the whole-input multiline test matches across the newline (`\s*`
consumes it), so `createFileMap` returns an empty map instead of
throwing. -/
theorem claim8_no_marker_error_counterexample :
    ((splitLinesL (jstr "// @filename:\nfoo")).all (fun l => (markerScan l).isNone) = true) ∧
    (markerScan (jstr "// @filename:\nfoo")).isSome = true ∧
    createFileMap (jstr "// @filename:\nfoo") = .ok [] ∧
    createFileMap (jstr "// @filename:\nfoo") ≠
      .error (litError "no input files found" 1) :=
  ⟨by decide, by decide, rfl,
   fun h => Except.noConfusion
     (show Except.ok ([] : List (JStr × JStr)) =
        Except.error (litError "no input files found" 1) from h)⟩

/-- The generator loop emits exactly one `GeneratedFile` per requested
config, in request order: on success the generators of the results are the
requested aliases in order. -/
theorem ccoGo_generators (files : List (JStr × JStr)) :
    ∀ (configs : List GenConfigE) (results : List GeneratedFile),
      ccoGo files configs = .ok results →
      results.map GeneratedFile.generator = configs.map GenConfigE.aliasName := by
  intro configs
  induction configs with
  | nil =>
    intro results h
    simp only [ccoGo] at h
    cases h
    rfl
  | cons c rest ih =>
    intro results h
    simp only [ccoGo] at h
    split at h
    · exact Except.noConfusion h
    · split at h
      · exact Except.noConfusion h
      · rename_i extInfo _
        split at h
        · exact Except.noConfusion h
        · rename_i outFileMatch _
          split at h
          · cases hrec : ccoGo files rest with
            | error e => rw [hrec] at h; exact Except.noConfusion h
            | ok rs =>
              rw [hrec] at h
              simp only [Except.map] at h
              cases h
              simp only [List.map_cons]
              rw [ih rs hrec]
          · split at h
            · cases hrec : ccoGo files rest with
              | error e => rw [hrec] at h; exact Except.noConfusion h
              | ok rs =>
                rw [hrec] at h
                simp only [Except.map] at h
                cases h
                simp only [List.map_cons]
                rw [ih rs hrec]
            · exact Except.noConfusion h

/-- C6: on every successful assembly, the `results` sequence holds exactly
one generated file per requested generator config, in the order the
generators were requested — whatever the order of the files in the decoded
map. -/
theorem claim6_results_order (files : List (JStr × JStr)) (configs : List GenConfigE)
    (stdError : JStr) (out : CompilerOutputE)
    (h : createCompilerOutput files configs stdError = .ok out) :
    out.results.map (fun rs => rs.map GeneratedFile.generator) =
      some (configs.map GenConfigE.aliasName) := by
  simp only [createCompilerOutput] at h
  split at h
  · exact Except.noConfusion h
  · split at h
    · exact Except.noConfusion h
    · rename_i we warnings errors hwe
      split at h
      · exact Except.noConfusion h
      · rename_i results hrec
        cases h
        simp [ccoGo_generators files configs results hrec]

/-- Witness for C6: two requested generators whose files appear in the
decoded map in the opposite order still come back as one result each, in
request order `ts`, `cs`. -/
theorem claim6_results_order_witness :
    (⟨some (.arr []), some (.arr []),
        some [⟨jstr "/a.ts", jstr "1", jstr "ts", none⟩,
          ⟨jstr "/b.cs", jstr "2", jstr "cs", none⟩]⟩ : CompilerOutputE).results.map
        (fun rs => rs.map GeneratedFile.generator) =
      some (([⟨jstr "ts", jstr "/a.ts"⟩, ⟨jstr "cs", jstr "/b.cs"⟩] :
        List GenConfigE).map GenConfigE.aliasName) :=
  claim6_results_order
    [(jstr "/b.cs", jstr "2"), (jstr "/a.ts", jstr "1")]
    [⟨jstr "ts", jstr "/a.ts"⟩, ⟨jstr "cs", jstr "/b.cs"⟩] []
    ⟨some (.arr []), some (.arr []),
      some [⟨jstr "/a.ts", jstr "1", jstr "ts", none⟩,
        ⟨jstr "/b.cs", jstr "2", jstr "cs", none⟩]⟩ rfl

/-- C4 (amended): when the alias declares an auxiliary extension, the
assembler searches for a produced file with that extension whose directory
equals the directory of the **resolved output path** (not the directory of
the suffix-matched primary file): it attaches the first such file, and
fails with the auxiliary-file-not-found error when none has exactly that
directory — even if the primary matched with a different virtual-root
prefix and its own directory does contain the auxiliary. -/
theorem claim4_auxiliary_search_dir (files : List (JStr × JStr)) (config : GenConfigE)
    (info : ExtInfo) (auxExt : JStr) (primary : JStr)
    (hlook : extLookup config.aliasName = some info)
    (haux : info.auxiliaryExt = some auxExt)
    (hem : extMatch (resolveSlash config.outFile) = true)
    (hprim : (files.map Prod.fst).find?
      (fun f => strEndsWith f (resolveSlash config.outFile)) = some primary) :
    (∀ auxFile,
      (files.map Prod.fst).find?
          (fun f => strEndsWith f ('.' :: auxExt) &&
            dirname f = dirname (resolveSlash config.outFile)) = some auxFile →
      createCompilerOutput files [config] [] =
        .ok ⟨some (.arr []), some (.arr []),
          some [⟨primary, (getEntry files primary).getD [], config.aliasName,
            some (auxFile, (getEntry files auxFile).getD [])⟩]⟩) ∧
    ((files.map Prod.fst).find?
        (fun f => strEndsWith f ('.' :: auxExt) &&
          dirname f = dirname (resolveSlash config.outFile)) = none →
      createCompilerOutput files [config] [] =
        .error (litError "unable to find auxiliary file" 1)) := by
  have hgo : ∀ r, ccoGo files [config] = r →
      createCompilerOutput files [config] [] =
        (r.map (fun results => (⟨some (.arr []), some (.arr []), some results⟩ : CompilerOutputE))) := by
    intro r hr
    simp only [createCompilerOutput, if_neg (by simp : ¬ ([config] : List GenConfigE) = []),
      if_true]
    rw [hr]
    cases r <;> rfl
  have hnem : ¬ (¬ extMatch (resolveSlash config.outFile) = true) := by
    rw [hem]; simp
  constructor
  · intro auxFile hausearch
    rw [hgo (ccoGo files [config]) rfl]
    simp only [ccoGo, if_neg hnem, hlook, hprim, haux, hausearch]
    rfl
  · intro hausearch
    rw [hgo (ccoGo files [config]) rfl]
    simp only [ccoGo, if_neg hnem, hlook, hprim, haux, hausearch]
    rfl

/-- Witness for C4 (amended): with the produced files in the same (resolved)
directory as the declared output path, the auxiliary is found and
attached. -/
theorem claim4_auxiliary_search_dir_witness :
    createCompilerOutput [(jstr "/out/a.cpp", jstr "x"), (jstr "/out/a.hpp", jstr "y")]
        [⟨jstr "cpp", jstr "/out/a.cpp"⟩] [] =
      .ok ⟨some (.arr []), some (.arr []),
        some [⟨jstr "/out/a.cpp", jstr "x", jstr "cpp",
          some (jstr "/out/a.hpp", jstr "y")⟩]⟩ :=
  (claim4_auxiliary_search_dir
    [(jstr "/out/a.cpp", jstr "x"), (jstr "/out/a.hpp", jstr "y")]
    ⟨jstr "cpp", jstr "/out/a.cpp"⟩ ⟨jstr "cpp", some (jstr "hpp")⟩ (jstr "hpp")
    (jstr "/out/a.cpp") rfl rfl rfl rfl).1 (jstr "/out/a.hpp") rfl

/-- Counterexample to C4 as frozen: the primary output matches only by
suffix (virtual-root prefix `/root`), the produced auxiliary `.hpp` lives in
the **same directory as the matched primary**, yet the assembler fails with
the auxiliary-file-not-found error because it compares against the resolved
output path's directory. -/
theorem claim4_auxiliary_search_dir_counterexample :
    strEndsWith (jstr "/root/out/a.cpp") (resolveSlash (jstr "/out/a.cpp")) = true ∧
    dirname (jstr "/root/out/a.hpp") = dirname (jstr "/root/out/a.cpp") ∧
    strEndsWith (jstr "/root/out/a.hpp") (jstr ".hpp") = true ∧
    createCompilerOutput
        [(jstr "/root/out/a.cpp", jstr "x"), (jstr "/root/out/a.hpp", jstr "y")]
        [⟨jstr "cpp", jstr "/out/a.cpp"⟩] [] =
      .error (litError "unable to find auxiliary file" 1) :=
  ⟨by decide, by decide, by decide, rfl⟩

/-- The stderr handling of the output assembler: with generators requested
and a non-empty stderr, the whole text is parsed as one JSON document —
a parse failure is a thrown compiler error, and a parse success supplies
`warnings`/`errors` verbatim. -/
theorem createCompilerOutput_stderr_parse (files : List (JStr × JStr))
    (configs : List GenConfigE) (stdError : JStr)
    (hgen : configs ≠ []) (herr : stdError ≠ []) :
    (jsonParse stdError = none →
      createCompilerOutput files configs stdError =
        .error (litError "error while parsing standard error" 1)) ∧
    (∀ j o, jsonParse stdError = some j →
      createCompilerOutput files configs stdError = .ok o →
      o.warnings = objGet j (jstr "warnings") ∧ o.errors = objGet j (jstr "errors")) := by
  constructor
  · intro hjp
    simp only [createCompilerOutput, if_neg hgen, if_neg herr, hjp]
  · intro j o hjp h
    simp only [createCompilerOutput, if_neg hgen, if_neg herr, hjp] at h
    cases hrec : ccoGo files configs with
    | error e => rw [hrec] at h; exact Except.noConfusion h
    | ok results =>
      rw [hrec] at h
      cases h
      exact ⟨rfl, rfl⟩

/-- C10: on the emit success path (exit 0, no `--no-emit`, no `--stdout`,
decodable stdout), a non-empty stderr is parsed in its entirety as a single
JSON document: if that parse fails `build` throws the
`error while parsing standard error` compiler error — the embedded-JSON
scraping with discard-on-failure is not applied here — and if it succeeds
the returned output's `warnings`/`errors` are exactly the parsed
document's fields. -/
theorem claim10_success_stderr_whole_parse (generators : Option (List GenConfigE))
    (configGens : List GenConfigE) (options : BuildOptionsE)
    (response : WorkerResponse) (emitted : List (JStr × JStr))
    (hexit : response.exitCode = 0) (hnoemit : options.noEmit = false)
    (hstdout : options.writeToStdOut = false)
    (hnonempty : response.stdOut ≠ [])
    (hfm : createFileMap response.stdOut = .ok emitted)
    (hgen : generators.getD configGens ≠ [])
    (herr : response.stdErr ≠ []) :
    (jsonParse response.stdErr = none →
      buildHandle generators configGens options response =
        .error (.compiler (litError "error while parsing standard error" 1))) ∧
    (∀ j o, jsonParse response.stdErr = some j →
      buildHandle generators configGens options response = .ok (.out o) →
      o.warnings = objGet j (jstr "warnings") ∧ o.errors = objGet j (jstr "errors")) := by
  have hred : buildHandle generators configGens options response =
      match createCompilerOutput emitted (generators.getD configGens) response.stdErr with
      | .error e => .error (.compiler e)
      | .ok o => .ok (.out o) := by
    simp only [buildHandle, hexit, hnoemit, hstdout, if_neg hnonempty, hfm]
    simp
  constructor
  · intro hjp
    rw [hred,
      (createCompilerOutput_stderr_parse emitted (generators.getD configGens)
        response.stdErr hgen herr).1 hjp]
  · intro j o hjp h
    rw [hred] at h
    cases hcco : createCompilerOutput emitted (generators.getD configGens) response.stdErr with
    | error e => rw [hcco] at h; exact Except.noConfusion h
    | ok o2 =>
      rw [hcco] at h
      have ho : o2 = o := by
        cases h
        rfl
      exact ho ▸ (createCompilerOutput_stderr_parse emitted (generators.getD configGens)
        response.stdErr hgen herr).2 j o2 hjp hcco

/-- Witness for C10: exit 0, decodable stdout, one `ts` generator and the
non-JSON stderr `notjson` make `build` throw the
`error while parsing standard error` compiler error. -/
theorem claim10_success_stderr_whole_parse_witness :
    buildHandle (some [⟨jstr "ts", jstr "/a.ts"⟩]) [] ⟨false, false⟩
        ⟨0, jstr "// @filename: /a.ts\nx", jstr "notjson"⟩ =
      .error (.compiler (litError "error while parsing standard error" 1)) :=
  (claim10_success_stderr_whole_parse (some [⟨jstr "ts", jstr "/a.ts"⟩]) []
    ⟨false, false⟩ ⟨0, jstr "// @filename: /a.ts\nx", jstr "notjson"⟩
    [(jstr "/a.ts", jstr "x")] rfl rfl rfl (by decide) rfl (by decide) (by decide)).1 rfl

/-- `find?` over the in-place update `setEntry` performs when the key is
present. -/
theorem find?_map_update {α : Type} (k k2 : JStr) (v : α) :
    ∀ m : List (JStr × α),
      ((m.map (fun e => if e.1 = k then (k, v) else e)).find? (fun e => e.1 = k2)) =
        if k2 = k then (m.find? (fun e => e.1 = k)).map (fun _ => (k, v))
        else m.find? (fun e => e.1 = k2) := by
  intro m
  induction m with
  | nil => by_cases h : k2 = k <;> simp [h]
  | cons e t ih =>
    simp only [List.map_cons]
    by_cases h2 : k2 = k
    · subst h2
      rw [if_pos rfl] at ih ⊢
      by_cases hek : e.1 = k2
      · rw [if_pos hek, List.find?_cons_of_pos _ (by simp),
          List.find?_cons_of_pos _ (by simpa using hek)]
        rfl
      · rw [if_neg hek, List.find?_cons_of_neg _ (by simpa using hek),
          List.find?_cons_of_neg _ (by simpa using hek), ih]
    · rw [if_neg h2] at ih ⊢
      by_cases hek : e.1 = k
      · rw [if_pos hek,
          List.find?_cons_of_neg _
            (by simp only [decide_eq_true_eq]; exact fun h => h2 h.symm),
          List.find?_cons_of_neg _
            (by simp only [decide_eq_true_eq]; rw [hek]; exact fun h => h2 h.symm), ih]
      · by_cases he2 : e.1 = k2
        · rw [if_neg hek, List.find?_cons_of_pos _ (by simpa using he2),
            List.find?_cons_of_pos _ (by simpa using he2)]
        · rw [if_neg hek, List.find?_cons_of_neg _ (by simpa using he2),
            List.find?_cons_of_neg _ (by simpa using he2), ih]

/-- After `setEntry m k v`, looking up `k` yields `v`. -/
theorem getEntry_setEntry_same {α : Type} (m : List (JStr × α)) (k : JStr) (v : α) :
    getEntry (setEntry m k v) k = some v := by
  unfold setEntry getEntry
  by_cases hany : m.any (fun e => e.1 = k) = true
  · rw [if_pos hany, find?_map_update, if_pos rfl]
    have h1 : (m.find? (fun e => decide (e.1 = k))).isSome = true := by
      rw [List.find?_isSome]
      rcases List.any_eq_true.mp hany with ⟨e, he, hp⟩
      exact ⟨e, he, hp⟩
    cases hf : m.find? (fun e => decide (e.1 = k)) with
    | none => rw [hf] at h1; exact Bool.noConfusion h1
    | some e => rfl
  · rw [if_neg hany, List.find?_append]
    have hnone : m.find? (fun e => decide (e.1 = k)) = none := by
      rw [List.find?_eq_none]
      intro e he hk
      exact hany (List.any_eq_true.mpr ⟨e, he, hk⟩)
    rw [hnone, List.find?_cons_of_pos _ (by simp)]
    rfl

/-- After `setEntry m k v`, lookups of other keys are unchanged. -/
theorem getEntry_setEntry_other {α : Type} (m : List (JStr × α)) (k k2 : JStr) (v : α)
    (hne : k2 ≠ k) : getEntry (setEntry m k v) k2 = getEntry m k2 := by
  unfold setEntry getEntry
  by_cases hany : m.any (fun e => e.1 = k) = true
  · rw [if_pos hany, find?_map_update, if_neg hne]
  · rw [if_neg hany, List.find?_append,
      List.find?_cons_of_neg _ (by simp [Ne.symm hne])]
    simp

/-- The decode loop is the fold of its write sequence over the map. -/
theorem fmLoop_eq_writes :
    ∀ (lines : List JStr) (cur : Option JStr) (acc : List JStr)
      (files : List (JStr × JStr)),
      fmLoop lines cur acc files =
        (fmWrites lines cur acc).foldl (fun m e => setEntry m e.1 e.2) files := by
  intro lines
  induction lines with
  | nil =>
    intro cur acc files
    cases cur <;> rfl
  | cons line rest ih =>
    intro cur acc files
    cases hm : markerScan line with
    | some cap =>
      simp only [fmLoop, fmWrites, hm, List.foldl_append]
      rw [ih]
      cases cur <;> rfl
    | none =>
      simp only [fmLoop, fmWrites, hm]
      cases cur <;> exact ih _ _ _

/-- Looking a key up after folding a write sequence into a map returns the
last written value for it, or falls through to the original map. -/
theorem getEntry_foldl_writes (k : JStr) :
    ∀ (ws : List (JStr × JStr)) (m : List (JStr × JStr)),
      getEntry (ws.foldl (fun m e => setEntry m e.1 e.2) m) k =
        match lastAssign k ws with
        | some v => some v
        | none => getEntry m k := by
  intro ws
  induction ws with
  | nil => intro m; rfl
  | cons e rest ih =>
    intro m
    simp only [List.foldl_cons, ih]
    have hl : lastAssign k (e :: rest) =
        match lastAssign k rest with
        | some v => some v
        | none => if e.1 = k then some e.2 else none := by
      simp only [lastAssign, List.reverse_cons, List.find?_append]
      cases hr : (rest.reverse.find? (fun x => x.1 = k)) with
      | some x => rfl
      | none =>
        by_cases hek : e.1 = k
        · have hfe : List.find? (fun x => decide (x.1 = k)) [e] = some e :=
            List.find?_cons_of_pos _ (by simpa using hek)
          rw [if_pos hek]
          simp [hfe]
        · have hfe : List.find? (fun x => decide (x.1 = k)) [e] = none := by
            rw [List.find?_cons_of_neg _ (by simpa using hek)]
            rfl
          rw [if_neg hek]
          simp [hfe]
    rw [hl]
    cases hr : lastAssign k rest with
    | some v => rfl
    | none =>
      by_cases hek : e.1 = k
      · rw [if_pos hek, ← hek, getEntry_setEntry_same]
      · rw [if_neg hek, getEntry_setEntry_other _ _ _ _ (fun h => hek h.symm)]

/-- Every entry of a fold of writes comes from the original map or from one
of the writes (key-wise). -/
theorem foldl_writes_keys (P : JStr → Prop) :
    ∀ (ws : List (JStr × JStr)) (m : List (JStr × JStr)),
      (∀ e ∈ m, P e.1) → (∀ e ∈ ws, P e.1) →
      ∀ e ∈ ws.foldl (fun m e => setEntry m e.1 e.2) m, P e.1 := by
  intro ws
  induction ws with
  | nil => intro m hm _ e he; exact hm e he
  | cons w rest ih =>
    intro m hm hw e he
    refine ih (setEntry m w.1 w.2) ?_ (fun x hx => hw x (List.mem_cons_of_mem w hx)) e he
    intro x hx
    unfold setEntry at hx
    by_cases hany : m.any (fun e => e.1 = w.1) = true
    · rw [if_pos hany] at hx
      rcases List.mem_map.mp hx with ⟨y, hy, hxy⟩
      by_cases hyk : y.1 = w.1
      · rw [if_pos hyk] at hxy
        rw [← hxy]
        exact hw w (List.mem_cons_self w rest)
      · rw [if_neg hyk] at hxy
        rw [← hxy]
        exact hm y hy
    · rw [if_neg hany] at hx
      rcases List.mem_append.mp hx with h | h
      · exact hm x h
      · rw [List.mem_singleton.mp h]
        exact hw w (List.mem_cons_self w rest)

/-- Every key the decode loop ever writes is the resolution of some
captured marker path. -/
theorem fmWrites_keys :
    ∀ (lines : List JStr) (cur : Option JStr) (acc : List JStr),
      (∀ k, cur = some k → ∃ p, k = resolveSlash p) →
      ∀ e ∈ fmWrites lines cur acc, ∃ p, e.1 = resolveSlash p := by
  intro lines
  induction lines with
  | nil =>
    intro cur acc hcur e he
    cases cur with
    | none => simp [fmWrites] at he
    | some k =>
      simp only [fmWrites, List.mem_singleton] at he
      rw [he]
      exact hcur k rfl
  | cons line rest ih =>
    intro cur acc hcur e he
    cases hm : markerScan line with
    | some cap =>
      simp only [fmWrites, hm] at he
      rcases List.mem_append.mp he with h | h
      · cases cur with
        | none => simp at h
        | some k =>
          simp only [List.mem_singleton] at h
          rw [h]
          exact hcur k rfl
      · exact ih (some (resolveSlash cap)) []
          (fun k hk => ⟨cap, by injection hk with h2; rw [← h2]⟩) e h
    | none =>
      simp only [fmWrites, hm] at he
      exact ih cur _ hcur e he

theorem splitOnSlash_ne_nil (p : JStr) : splitOnSlash p ≠ [] := by
  induction p using splitOnSlash.induct with
  | case1 => simp [splitOnSlash]
  | case2 rest ih => simp [splitOnSlash]
  | case3 c rest hne l ls hsp ih => simp [splitOnSlash, hsp]
  | case4 c rest hne hsp ih => exact absurd hsp ih

theorem splitOnSlash_cons (c : Char) (rest : JStr) (h : ¬ c = '/') :
    splitOnSlash (c :: rest) =
      match splitOnSlash rest with
      | l :: ls => (c :: l) :: ls
      | [] => [[c]] := by
  cases hsp : splitOnSlash rest with
  | nil => exact absurd hsp (splitOnSlash_ne_nil rest)
  | cons l ls =>
    rw [splitOnSlash.eq_def]
    split
    · rename_i heq; exact List.noConfusion heq
    · rename_i heq
      injection heq with h1 h2
      exact absurd h1 h
    · rename_i c2 rest2 heq
      injection heq with h1 h2
      subst h1; subst h2
      rw [hsp]

theorem splitOnSlash_no_slash (p : JStr) : ∀ s ∈ splitOnSlash p, '/' ∉ s := by
  induction p using splitOnSlash.induct with
  | case1 =>
    intro s hs
    simp only [splitOnSlash, List.mem_singleton] at hs
    subst hs; simp
  | case2 rest ih =>
    intro s hs
    simp only [splitOnSlash, List.mem_cons] at hs
    rcases hs with h | h
    · subst h; simp
    · exact ih s h
  | case3 c rest hne l ls hsp ih =>
    intro s hs
    rw [splitOnSlash_cons c rest (fun h => hne h), hsp] at hs
    rcases List.mem_cons.mp hs with h1 | h1
    · subst h1
      intro hmem
      rcases List.mem_cons.mp hmem with h2 | h2
      · exact hne h2.symm
      · exact ih l (hsp ▸ List.mem_cons_self l ls) h2
    · exact ih s (hsp ▸ List.mem_cons_of_mem l h1)
  | case4 c rest hne hsp ih => exact absurd hsp (splitOnSlash_ne_nil rest)

theorem splitOnSlash_single (s : JStr) (h : '/' ∉ s) : splitOnSlash s = [s] := by
  induction s with
  | nil => rfl
  | cons c t ih =>
    have hc : ¬ c = '/' := fun hc => h (hc ▸ List.mem_cons_self c t)
    rw [splitOnSlash_cons c t hc, ih (fun hm => h (List.mem_cons_of_mem c hm))]

theorem splitOnSlash_append_slash (a b : JStr) (h : '/' ∉ a) :
    splitOnSlash (a ++ '/' :: b) = a :: splitOnSlash b := by
  induction a with
  | nil => rfl
  | cons c t ih =>
    have hc : ¬ c = '/' := fun hc => h (hc ▸ List.mem_cons_self c t)
    rw [List.cons_append, splitOnSlash_cons c _ hc,
      ih (fun hm => h (List.mem_cons_of_mem c hm))]

theorem splitOnSlash_joinSlash (L : List JStr) (hne : L ≠ []) (h : ∀ s ∈ L, '/' ∉ s) :
    splitOnSlash (joinSlash L) = L := by
  induction L with
  | nil => exact absurd rfl hne
  | cons s t ih =>
    cases t with
    | nil => exact splitOnSlash_single s (h s (List.mem_singleton.mpr rfl))
    | cons s2 t2 =>
      show splitOnSlash (s ++ '/' :: joinSlash (s2 :: t2)) = _
      rw [splitOnSlash_append_slash s _ (h s (List.mem_cons_self _ _)),
        ih (by simp) (fun x hx => h x (List.mem_cons_of_mem s hx))]

theorem normSegs_good (L : List JStr)
    (h : ∀ s ∈ L, s ≠ [] ∧ s ≠ jstr "." ∧ s ≠ jstr "..") :
    ∀ acc, normSegs L acc = acc.reverse ++ L := by
  induction L with
  | nil => intro acc; simp [normSegs]
  | cons s t ih =>
    intro acc
    have hs := h s (List.mem_cons_self s t)
    simp only [normSegs]
    rw [if_neg (by push_neg; exact ⟨hs.1, hs.2.1⟩), if_neg hs.2.2,
      ih (fun x hx => h x (List.mem_cons_of_mem s hx))]
    simp

theorem normSegs_segOk :
    ∀ (L : List JStr) (acc : List JStr),
      (∀ s ∈ L, '/' ∉ s) →
      (∀ s ∈ acc, s ≠ [] ∧ s ≠ jstr "." ∧ s ≠ jstr ".." ∧ '/' ∉ s) →
      ∀ s ∈ normSegs L acc, s ≠ [] ∧ s ≠ jstr "." ∧ s ≠ jstr ".." ∧ '/' ∉ s := by
  intro L
  induction L with
  | nil =>
    intro acc _ hacc s hs
    simp only [normSegs, List.mem_reverse] at hs
    exact hacc s hs
  | cons x t ih =>
    intro acc hL hacc s hs
    simp only [normSegs] at hs
    by_cases h1 : x = [] ∨ x = jstr "."
    · rw [if_pos h1] at hs
      exact ih acc (fun y hy => hL y (List.mem_cons_of_mem x hy)) hacc s hs
    · rw [if_neg h1] at hs
      by_cases h2 : x = jstr ".."
      · rw [if_pos h2] at hs
        refine ih acc.tail (fun y hy => hL y (List.mem_cons_of_mem x hy)) ?_ s hs
        intro y hy
        exact hacc y (List.mem_of_mem_tail hy)
      · rw [if_neg h2] at hs
        push_neg at h1
        refine ih (x :: acc) (fun y hy => hL y (List.mem_cons_of_mem x hy)) ?_ s hs
        intro y hy
        rcases List.mem_cons.mp hy with h3 | h3
        · subst h3
          exact ⟨h1.1, h1.2, h2, hL y (List.mem_cons_self _ _)⟩
        · exact hacc y h3

theorem resolveSlash_idem (p : JStr) : resolveSlash (resolveSlash p) = resolveSlash p := by
  have hseg := normSegs_segOk (splitOnSlash p) [] (splitOnSlash_no_slash p) (by simp)
  cases hLc : normSegs (splitOnSlash p) [] with
  | nil =>
    show resolveSlash ('/' :: joinSlash (normSegs (splitOnSlash p) [])) =
      '/' :: joinSlash (normSegs (splitOnSlash p) [])
    rw [hLc]
    decide
  | cons s t =>
    rw [hLc] at hseg
    show resolveSlash ('/' :: joinSlash (normSegs (splitOnSlash p) [])) =
      '/' :: joinSlash (normSegs (splitOnSlash p) [])
    rw [hLc]
    show '/' :: joinSlash (normSegs (splitOnSlash ('/' :: joinSlash (s :: t))) []) = _
    rw [show splitOnSlash ('/' :: joinSlash (s :: t)) = [] :: splitOnSlash (joinSlash (s :: t)) from rfl]
    rw [splitOnSlash_joinSlash (s :: t) (by simp) (fun x hx => (hseg x hx).2.2.2)]
    rw [show normSegs ([] :: s :: t) [] = normSegs (s :: t) [] by simp [normSegs]]
    rw [normSegs_good (s :: t) (fun x hx =>
      ⟨(hseg x hx).1, (hseg x hx).2.1, (hseg x hx).2.2.1⟩) []]
    simp

theorem isNormalizedAbs_resolveSlash (p : JStr) : isNormalizedAbs (resolveSlash p) := by
  have hseg := normSegs_segOk (splitOnSlash p) [] (splitOnSlash_no_slash p) (by simp)
  refine ⟨rfl, resolveSlash_idem p, ?_⟩
  cases hLc : normSegs (splitOnSlash p) [] with
  | nil =>
    left
    show '/' :: joinSlash (normSegs (splitOnSlash p) []) = _
    rw [hLc]
    rfl
  | cons s t =>
    right
    rw [hLc] at hseg
    intro x hx
    have hd : (resolveSlash p).drop 1 = joinSlash (s :: t) := by
      show ('/' :: joinSlash (normSegs (splitOnSlash p) [])).drop 1 = _
      rw [hLc]
      rfl
    rw [hd, splitOnSlash_joinSlash (s :: t) (by simp)
      (fun y hy => (hseg y hy).2.2.2)] at hx
    exact ⟨(hseg x hx).1, (hseg x hx).2.1, (hseg x hx).2.2.1⟩

/-- C9: on every successful decode, each key of the returned file map is an
absolute normalized POSIX path (the captured marker path resolved against
`/`), and a lookup returns the content of the **last** block whose marker
resolved to that key (last-write-wins). -/
theorem claim9_normalized_keys_last_write (input : JStr) (files : List (JStr × JStr))
    (h : createFileMap input = .ok files) :
    (∀ e ∈ files, isNormalizedAbs e.1) ∧
    (∀ k, getEntry files k = lastAssign k (fmWrites (splitLinesL input) none [])) := by
  have hfiles : files = fmLoop (splitLinesL input) none [] [] := by
    unfold createFileMap at h
    by_cases hm : (markerScan input).isSome = true
    · rw [if_pos hm] at h
      injection h with h2
      exact h2.symm
    · rw [if_neg hm] at h
      exact Except.noConfusion h
  constructor
  · intro e he
    rw [hfiles, fmLoop_eq_writes] at he
    have hkey := foldl_writes_keys (fun k => ∃ p, k = resolveSlash p)
      (fmWrites (splitLinesL input) none []) [] (by simp)
      (fmWrites_keys (splitLinesL input) none []
        (fun k hk => Option.noConfusion hk)) e he
    rcases hkey with ⟨p, hp⟩
    rw [hp]
    exact isNormalizedAbs_resolveSlash p
  · intro k
    rw [hfiles, fmLoop_eq_writes, getEntry_foldl_writes]
    cases lastAssign k (fmWrites (splitLinesL input) none []) <;> rfl

/-- Witness for C9: two markers whose paths (`/a` and `../a`) normalize to
the same key; the decoded map holds one normalized key carrying the later
block's content. -/
theorem claim9_normalized_keys_last_write_witness :
    isNormalizedAbs (jstr "/a") ∧
    getEntry [(jstr "/a", jstr "y")] (jstr "/a") =
      lastAssign (jstr "/a")
        (fmWrites (splitLinesL (jstr "// @filename: /a\nx\n// @filename: ../a\ny")) none []) :=
  ⟨(claim9_normalized_keys_last_write
      (jstr "// @filename: /a\nx\n// @filename: ../a\ny")
      [(jstr "/a", jstr "y")] rfl).1 (jstr "/a", jstr "y") (List.mem_singleton.mpr rfl),
   (claim9_normalized_keys_last_write
      (jstr "// @filename: /a\nx\n// @filename: ../a\ny")
      [(jstr "/a", jstr "y")] rfl).2 (jstr "/a")⟩

theorem markerAt_markerLine (k rest : JStr) (hk : k.head? = some '/')
    (hLT : ∀ c ∈ k, isLT c = false) :
    markerAt (markerLine k ++ rest) =
      some (k ++ rest.takeWhile (fun c => ¬ isLT c)) := by
  obtain ⟨kt, rfl⟩ : ∃ kt, k = '/' :: kt := by
    cases k with
    | nil => exact Option.noConfusion hk
    | cons c t =>
      injection hk with h
      exact ⟨t, by rw [h]⟩
  show markerAt ('/' :: '/' :: ' ' :: '@' :: 'f' :: 'i' :: 'l' :: 'e' :: 'n' :: 'a' ::
    'm' :: 'e' :: ':' :: ' ' :: ('/' :: (kt ++ rest))) = _
  simp only [markerAt, List.dropWhile_cons_of_neg (by decide : ¬ isWS '/' = true)]
  simp only [List.dropWhile_cons_of_pos (by decide : isWS ' ' = true),
    List.dropWhile_cons_of_neg (by decide : ¬ isWS '@' = true)]
  simp only [ciStarts, jstr, if_true]
  simp only [tailCapture,
    List.dropWhile_cons_of_pos (by decide : isWS ' ' = true),
    List.dropWhile_cons_of_neg (by decide : ¬ isWS '/' = true)]
  rw [if_pos (by simp)]
  simp only [List.takeWhile_cons]
  rw [if_pos (by decide), List.takeWhile_append_of_pos
    (fun c hc => by simp [hLT c (List.mem_cons_of_mem _ hc)])]
  rfl

theorem markerScan_markerLine (k rest : JStr) (hk : k.head? = some '/')
    (hLT : ∀ c ∈ k, isLT c = false) :
    markerScan (markerLine k ++ rest) =
      some (k ++ rest.takeWhile (fun c => ¬ isLT c)) := by
  simp only [markerScan, markerAt_markerLine k rest hk hLT]

theorem markerScan_markerLine_nil (k : JStr) (hk : k.head? = some '/')
    (hLT : ∀ c ∈ k, isLT c = false) : markerScan (markerLine k) = some k := by
  have := markerScan_markerLine k [] hk hLT
  simpa using this

theorem fmLoop_marker (k : JStr) (rest : List JStr) (cur : Option JStr)
    (acc : List JStr) (files : List (JStr × JStr)) (hp : pathOk k) :
    fmLoop (markerLine k :: rest) cur acc files =
      fmLoop rest (some k) [] (finalizePrev cur acc files) := by
  have hk : k.head? = some '/' := by
    have h1 := hp.1
    conv_lhs => rw [← h1]
    rfl
  simp only [fmLoop, markerScan_markerLine_nil k hk hp.2.1, hp.1]

theorem fmLoop_content (lines : List JStr) :
    ∀ (rest : List JStr) (k : JStr) (acc : List JStr) (files : List (JStr × JStr)),
      (∀ l ∈ lines, markerScan l = none) →
      fmLoop (lines ++ rest) (some k) acc files =
        fmLoop rest (some k) (acc ++ lines) files := by
  induction lines with
  | nil => intro rest k acc files _; simp
  | cons l t ih =>
    intro rest k acc files hnone
    have hl : markerScan l = none := hnone l (List.mem_cons_self l t)
    simp only [List.cons_append, fmLoop, hl]
    calc fmLoop (t ++ rest) (some k) (acc ++ [l]) files
        = fmLoop rest (some k) ((acc ++ [l]) ++ t) files :=
          ih rest k (acc ++ [l]) files (fun x hx => hnone x (List.mem_cons_of_mem l hx))
      _ = fmLoop rest (some k) (acc ++ l :: t) files := by simp

theorem splitLinesL_cons_other (c : Char) (rest : JStr)
    (h1 : ¬ (c = '\r' ∧ rest.head? = some '\n')) (hn : ¬ c = '\n') :
    splitLinesL (c :: rest) =
      match splitLinesL rest with
      | l :: ls => (c :: l) :: ls
      | [] => [[c]] := by
  rw [splitLinesL.eq_def]
  split
  · rename_i heq; exact List.noConfusion heq
  · rename_i t heq
    injection heq with hc hrest
    exact absurd ⟨hc, by rw [hrest]; rfl⟩ h1
  · rename_i t heq
    injection heq with hc hrest
    exact absurd hc hn
  · rename_i c2 t heq
    injection heq with hc hrest
    subst hc; subst hrest
    rfl

theorem splitLinesL_ne_nil (p : JStr) : splitLinesL p ≠ [] := by
  induction p using splitLinesL.induct with
  | case1 => simp [splitLinesL]
  | case2 rest ih => simp [splitLinesL]
  | case3 rest ih => simp [splitLinesL]
  | case4 c rest h1 h2 l ls hsp ih =>
    have h1' : ¬ (c = '\r' ∧ rest.head? = some '\n') := by
      rintro ⟨hc, hh⟩
      cases rest with
      | nil => exact Option.noConfusion hh
      | cons x t =>
        injection hh with h3
        exact h1 t hc (by rw [h3])
    rw [splitLinesL_cons_other c rest h1' h2, hsp]
    simp
  | case5 c rest h1 h2 hsp ih => exact absurd hsp ih

theorem splitLinesL_append_nl (a b : JStr) (h : '\r' ∉ a) :
    splitLinesL (a ++ '\n' :: b) = splitLinesL a ++ splitLinesL b := by
  induction a with
  | nil => rfl
  | cons c t ih =>
    have hr : ¬ c = '\r' := fun hc => h (hc ▸ List.mem_cons_self c t)
    have iht := ih (fun hm => h (List.mem_cons_of_mem c hm))
    by_cases hn : c = '\n'
    · subst hn
      show splitLinesL ('\n' :: (t ++ '\n' :: b)) = _
      rw [show splitLinesL ('\n' :: (t ++ '\n' :: b)) =
        [] :: splitLinesL (t ++ '\n' :: b) from rfl, iht]
      rfl
    · rw [List.cons_append,
        splitLinesL_cons_other c _ (fun hh => hr hh.1) hn, iht,
        splitLinesL_cons_other c t (fun hh => hr hh.1) hn]
      cases hsa : splitLinesL t with
      | nil => exact absurd hsa (splitLinesL_ne_nil t)
      | cons l ls => rfl

theorem splitLinesL_no_newline (a : JStr) (h : '\n' ∉ a) : splitLinesL a = [a] := by
  induction a with
  | nil => rfl
  | cons c t ih =>
    have hn : ¬ c = '\n' := fun hc => h (hc ▸ List.mem_cons_self c t)
    rw [splitLinesL_cons_other c t
      (fun hh => by
        cases t with
        | nil => exact Option.noConfusion hh.2
        | cons x s =>
          injection hh.2 with h3
          exact h (List.mem_cons_of_mem c (h3 ▸ List.mem_cons_self x s))) hn,
      ih (fun hm => h (List.mem_cons_of_mem c hm))]

theorem joinNL_cons_head (c : Char) (l : JStr) (ls : List JStr) :
    joinNL ((c :: l) :: ls) = c :: joinNL (l :: ls) := by
  cases ls <;> rfl

theorem joinNL_splitLinesL (c : JStr) (h : '\r' ∉ c) : joinNL (splitLinesL c) = c := by
  induction c with
  | nil => rfl
  | cons ch t ih =>
    have hr : ¬ ch = '\r' := fun hc => h (hc ▸ List.mem_cons_self ch t)
    have iht := ih (fun hm => h (List.mem_cons_of_mem ch hm))
    by_cases hn : ch = '\n'
    · subst hn
      rw [show splitLinesL ('\n' :: t) = [] :: splitLinesL t from rfl]
      cases hsa : splitLinesL t with
      | nil => exact absurd hsa (splitLinesL_ne_nil t)
      | cons l ls =>
        rw [hsa] at iht
        show [] ++ '\n' :: joinNL (l :: ls) = '\n' :: t
        rw [List.nil_append, iht]
    · rw [splitLinesL_cons_other ch t (fun hh => hr hh.1) hn]
      cases hsa : splitLinesL t with
      | nil => exact absurd hsa (splitLinesL_ne_nil t)
      | cons l ls =>
        rw [hsa] at iht
        show joinNL ((ch :: l) :: ls) = ch :: t
        rw [joinNL_cons_head, iht]

theorem joinNL_append_blank (L : List JStr) (h : L ≠ []) :
    joinNL (L ++ [[]]) = joinNL L ++ ['\n'] := by
  induction L with
  | nil => exact absurd rfl h
  | cons l t ih =>
    cases t with
    | nil => rfl
    | cons l2 t2 =>
      show joinNL (l :: ((l2 :: t2) ++ [[]])) = _
      rw [show joinNL (l :: ((l2 :: t2) ++ [[]])) =
          l ++ '\n' :: joinNL ((l2 :: t2) ++ [[]]) from rfl,
        ih (by simp)]
      show l ++ '\n' :: (joinNL (l2 :: t2) ++ ['\n']) =
        (l ++ '\n' :: joinNL (l2 :: t2)) ++ ['\n']
      simp

theorem trimEnd_append_ws (a w : JStr) (hw : ∀ c ∈ w, isWS c = true)
    (ha : lastNonWS a) : trimEndL (a ++ w) = a := by
  unfold trimEndL
  rw [List.reverse_append, List.dropWhile_append_of_pos
    (fun c hc => hw c (List.mem_reverse.mp hc))]
  unfold lastNonWS at ha
  cases har : a.reverse with
  | nil => rw [har] at ha; exact ha.elim
  | cons c t =>
    rw [har] at ha
    simp only [List.head?_cons, Option.elim] at ha
    rw [List.dropWhile_cons_of_neg (by simp [ha]), ← har, List.reverse_reverse]

theorem lastNonWS_append (a b : JStr) (hb : b ≠ []) (h : lastNonWS b) :
    lastNonWS (a ++ b) := by
  unfold lastNonWS at *
  rw [List.reverse_append]
  cases hbr : b.reverse with
  | nil => rw [hbr] at h; exact h.elim
  | cons c t =>
    rw [hbr] at h
    simpa using h

theorem pathOk_head (k : JStr) (hp : pathOk k) : k.head? = some '/' := by
  conv_lhs => rw [← hp.1]
  rfl

theorem pathOk_ne_nil (k : JStr) (hp : pathOk k) : k ≠ [] := by
  intro h
  rw [h] at hp
  exact Option.noConfusion (pathOk_head [] hp)

theorem markerLine_ne_nil (k : JStr) : markerLine k ≠ [] :=
  fun h => List.noConfusion h

theorem lastNonWS_markerLine (k : JStr) (hp : pathOk k) : lastNonWS (markerLine k) :=
  lastNonWS_append (jstr "// @filename: ") k (pathOk_ne_nil k hp) hp.2.2

theorem rawAll_cons (e : JStr × JStr) (es : List (JStr × JStr)) :
    rawAll (e :: es) = blockRaw e ++ rawAll es := by
  simp [rawAll]

theorem multiplexEncode_eq (es : List (JStr × JStr)) :
    multiplexEncode es = jsTrim (rawAll es) := by
  have hfold : ∀ (es2 : List (JStr × JStr)) (pre : JStr),
      es2.foldl (fun output e =>
        output ++ jstr "// @filename: " ++ e.1 ++ '\n' :: e.2 ++ jstr "\n\n") pre =
      pre ++ rawAll es2 := by
    intro es2
    induction es2 with
    | nil => intro pre; simp [rawAll]
    | cons e t ih =>
      intro pre
      rw [List.foldl_cons, ih, rawAll_cons]
      simp [blockRaw, markerLine, List.append_assoc]
  unfold multiplexEncode
  rw [hfold es []]
  simp

theorem multiplexEncode_concat (init : List (JStr × JStr)) (k c : JStr)
    (hk : pathOk k) (hc : c = [] ∨ lastNonWS c) :
    multiplexEncode (init ++ [(k, c)]) =
      rawAll init ++ markerLine k ++ (if c = [] then [] else '\n' :: c) := by
  rw [multiplexEncode_eq]
  have hraw : rawAll (init ++ [(k, c)]) = rawAll init ++ blockRaw (k, c) := by
    simp [rawAll]
  rw [hraw]
  unfold jsTrim
  have hhead : ∃ w, rawAll init ++ blockRaw (k, c) = '/' :: w := by
    cases init with
    | nil => exact ⟨_, rfl⟩
    | cons e t =>
      rw [rawAll_cons]
      exact ⟨_, rfl⟩
  rcases hhead with ⟨w, hw⟩
  rw [hw, List.dropWhile_cons_of_neg (by decide), ← hw]
  by_cases hcc : c = []
  · subst hcc
    rw [show rawAll init ++ blockRaw (k, []) =
        (rawAll init ++ markerLine k) ++ (['\n'] ++ jstr "\n\n") from by
      simp [blockRaw, List.append_assoc]]
    rw [trimEnd_append_ws _ _ (by decide)
      (lastNonWS_append _ _ (markerLine_ne_nil k) (lastNonWS_markerLine k hk))]
    rw [if_pos rfl]
    simp
  · have hlast : lastNonWS c := hc.resolve_left hcc
    rw [show rawAll init ++ blockRaw (k, c) =
        ((rawAll init ++ markerLine k) ++ '\n' :: c) ++ jstr "\n\n" from by
      simp [blockRaw, List.append_assoc]]
    rw [trimEnd_append_ws _ _ (by decide)
      (lastNonWS_append _ _ (by simp : ('\n' :: c : JStr) ≠ [])
        (lastNonWS_append ['\n'] c hcc hlast))]
    rw [if_neg hcc]

theorem streamLines_cons (e : JStr × JStr) (rest : List (JStr × JStr)) (h : rest ≠ []) :
    streamLines (e :: rest) = fullBlockLines e ++ streamLines rest := by
  cases rest with
  | nil => exact absurd rfl h
  | cons e2 t => rfl

theorem appendNL_cons (e : JStr × JStr) (rest : List (JStr × JStr)) (h : rest ≠ []) :
    appendNL (e :: rest) = (e.1, e.2 ++ ['\n']) :: appendNL rest := by
  cases rest with
  | nil => exact absurd rfl h
  | cons e2 t => rfl

theorem no_newline_markerLine (k : JStr) (hLT : ∀ c ∈ k, isLT c = false) :
    '\n' ∉ markerLine k := by
  intro hm
  unfold markerLine at hm
  rcases List.mem_append.mp hm with h | h
  · revert h; decide
  · have := hLT '\n' h
    simp [isLT] at this

theorem no_cr_markerLine (k : JStr) (hLT : ∀ c ∈ k, isLT c = false) :
    '\r' ∉ markerLine k := by
  intro hm
  unfold markerLine at hm
  rcases List.mem_append.mp hm with h | h
  · revert h; decide
  · have := hLT '\r' h
    simp [isLT] at this

theorem lines_of_stream :
    ∀ (init : List (JStr × JStr)) (k c : JStr),
      (∀ e ∈ init, pathOk e.1 ∧ contentOk e.2) → pathOk k → contentOk c →
      splitLinesL (rawAll init ++ markerLine k ++ (if c = [] then [] else '\n' :: c)) =
        streamLines (init ++ [(k, c)]) := by
  intro init
  induction init with
  | nil =>
    intro k c _ hk hc
    by_cases hcc : c = []
    · subst hcc
      simp only [rawAll, List.map_nil, List.flatten_nil, List.nil_append, if_true,
        List.append_nil]
      rw [splitLinesL_no_newline _ (no_newline_markerLine k hk.2.1)]
      rfl
    · rw [if_neg hcc]
      simp only [rawAll, List.map_nil, List.flatten_nil, List.nil_append]
      rw [splitLinesL_append_nl _ _ (no_cr_markerLine k hk.2.1),
        splitLinesL_no_newline _ (no_newline_markerLine k hk.2.1)]
      show _ = lastBlockLines (k, c)
      unfold lastBlockLines
      rw [if_neg hcc]
      rfl
  | cons e t ih =>
    intro k c hall hk hc
    have he := hall e (List.mem_cons_self e t)
    rw [rawAll_cons]
    rw [show blockRaw e ++ rawAll t ++ markerLine k ++ (if c = [] then [] else '\n' :: c) =
        markerLine e.1 ++ '\n' ::
          (e.2 ++ '\n' ::
            ('\n' :: (rawAll t ++ markerLine k ++ (if c = [] then [] else '\n' :: c))))
      from by simp [blockRaw, List.append_assoc]; rfl]
    rw [splitLinesL_append_nl _ _ (no_cr_markerLine e.1 he.1.2.1),
      splitLinesL_append_nl e.2 _ he.2.1,
      show splitLinesL ('\n' :: (rawAll t ++ markerLine k ++
          (if c = [] then [] else '\n' :: c))) =
        [] :: splitLinesL (rawAll t ++ markerLine k ++
          (if c = [] then [] else '\n' :: c)) from rfl,
      ih k c (fun x hx => hall x (List.mem_cons_of_mem e hx)) hk hc,
      splitLinesL_no_newline _ (no_newline_markerLine e.1 he.1.2.1)]
    have hsc : streamLines ((e :: t) ++ [(k, c)]) =
        fullBlockLines e ++ streamLines (t ++ [(k, c)]) := by
      rw [List.cons_append, streamLines_cons e (t ++ [(k, c)]) (by simp)]
    rw [hsc]
    simp [fullBlockLines, List.append_assoc]

theorem markerScan_nil : markerScan ([] : JStr) = none := rfl

theorem setEntry_fresh {α : Type} (m : List (JStr × α)) (k : JStr) (v : α)
    (h : ∀ e ∈ m, e.1 ≠ k) : setEntry m k v = m ++ [(k, v)] := by
  unfold setEntry
  rw [if_neg]
  intro hany
  rcases List.any_eq_true.mp hany with ⟨e, he, hp⟩
  exact h e he (by simpa using hp)

theorem joinNL_content_block (c : JStr) (hcr : '\r' ∉ c) :
    joinNL (splitLinesL c ++ [[]]) = c ++ ['\n'] := by
  rw [joinNL_append_blank _ (splitLinesL_ne_nil c), joinNL_splitLinesL c hcr]

theorem fmLoop_stream :
    ∀ (es : List (JStr × JStr)) (cur : Option JStr) (acc : List JStr)
      (files : List (JStr × JStr)),
      es ≠ [] →
      (∀ e ∈ es, pathOk e.1 ∧ contentOk e.2) →
      (es.map Prod.fst).Nodup →
      (∀ f ∈ finalizePrev cur acc files, ∀ e ∈ es, f.1 ≠ e.1) →
      fmLoop (streamLines es) cur acc files =
        finalizePrev cur acc files ++ appendNL es := by
  intro es
  induction es with
  | nil => intro cur acc files hne _ _ _; exact absurd rfl hne
  | cons e t ih =>
    intro cur acc files _ hall hnodup hfresh
    obtain ⟨k, c⟩ := e
    have he := hall (k, c) (List.mem_cons_self (k, c) t)
    cases t with
    | nil =>
      show fmLoop (lastBlockLines (k, c)) cur acc files = _
      unfold lastBlockLines
      by_cases hcc : c = []
      · rw [if_pos hcc, fmLoop_marker k [] cur acc files he.1]
        show setEntry (finalizePrev cur acc files) k (joinNL []) = _
        rw [setEntry_fresh _ _ _
          (fun f hf => hfresh f hf (k, c) (List.mem_cons_self (k, c) []))]
        rw [hcc]
        rfl
      · rw [if_neg hcc, fmLoop_marker k (splitLinesL c) cur acc files he.1]
        rw [show splitLinesL c = splitLinesL c ++ [] from by simp,
          fmLoop_content (splitLinesL c) [] k [] (finalizePrev cur acc files) he.2.2.1]
        show setEntry (finalizePrev cur acc files) k (joinNL ([] ++ splitLinesL c)) = _
        rw [List.nil_append, joinNL_splitLinesL c he.2.1,
          setEntry_fresh _ _ _
            (fun f hf => hfresh f hf (k, c) (List.mem_cons_self (k, c) []))]
        rfl
    | cons e2 t2 =>
      rw [streamLines_cons (k, c) (e2 :: t2) (by simp)]
      rw [show fullBlockLines (k, c) ++ streamLines (e2 :: t2) =
          markerLine k :: ((splitLinesL c ++ [[]]) ++ streamLines (e2 :: t2)) from by
        simp [fullBlockLines, List.append_assoc]]
      rw [fmLoop_marker k _ cur acc files he.1]
      rw [fmLoop_content (splitLinesL c ++ [[]]) (streamLines (e2 :: t2)) k []
        (finalizePrev cur acc files)
        (by
          intro l hl
          rcases List.mem_append.mp hl with h1 | h1
          · exact he.2.2.1 l h1
          · rw [List.mem_singleton.mp h1]
            rfl)]
      have hkey : ∀ e3 ∈ e2 :: t2, (k : JStr) ≠ e3.1 := by
        intro e3 he3 hkeq
        have hnd := hnodup
        simp only [List.map_cons, List.nodup_cons] at hnd
        exact hnd.1 (hkeq ▸ List.mem_map_of_mem Prod.fst he3)
      rw [ih (some k) ([] ++ (splitLinesL c ++ [[]])) (finalizePrev cur acc files)
        (by simp)
        (fun x hx => hall x (List.mem_cons_of_mem (k, c) hx))
        (by
          have hnd := hnodup
          simp only [List.map_cons, List.nodup_cons] at hnd ⊢
          exact hnd.2)
        (by
          intro f hf e3 he3
          show f.1 ≠ e3.1
          have hfin : finalizePrev (some k) ([] ++ (splitLinesL c ++ [[]]))
              (finalizePrev cur acc files) =
              finalizePrev cur acc files ++ [(k, c ++ ['\n'])] := by
            show setEntry (finalizePrev cur acc files) k
              (joinNL ([] ++ (splitLinesL c ++ [[]]))) = _
            rw [List.nil_append, joinNL_content_block c he.2.1,
              setEntry_fresh _ _ _
                (fun f2 hf2 => hfresh f2 hf2 (k, c) (List.mem_cons_self (k, c) _))]
          rw [hfin] at hf
          rcases List.mem_append.mp hf with h1 | h1
          · exact hfresh f h1 e3 (List.mem_cons_of_mem (k, c) he3)
          · rw [List.mem_singleton.mp h1]
            exact hkey e3 he3)]
      have hfin : finalizePrev (some k) ([] ++ (splitLinesL c ++ [[]]))
          (finalizePrev cur acc files) =
          finalizePrev cur acc files ++ [(k, c ++ ['\n'])] := by
        show setEntry (finalizePrev cur acc files) k
          (joinNL ([] ++ (splitLinesL c ++ [[]]))) = _
        rw [List.nil_append, joinNL_content_block c he.2.1,
          setEntry_fresh _ _ _
            (fun f2 hf2 => hfresh f2 hf2 (k, c) (List.mem_cons_self (k, c) _))]
      rw [hfin, appendNL_cons (k, c) (e2 :: t2) (by simp)]
      simp [List.append_assoc]


/-- C1 (amended): for every non-empty file map whose keys are normalized
absolute line-terminator-free paths not ending in whitespace, and whose
contents are carriage-return-free, contain no line matching the marker
pattern, and are empty or end in a non-whitespace character, decoding the
worker's multiplex encoding reproduces the key set exactly and the
contents **up to trailing newlines**: every entry except the last gains one
trailing `\n` (the blank separator line is folded into the preceding
file's content); only the final entry round-trips verbatim. -/
theorem claim1_roundtrip_amended (entries : List (JStr × JStr))
    (hne : entries ≠ [])
    (hcond : ∀ e ∈ entries, pathOk e.1 ∧ contentOk e.2)
    (hnodup : (entries.map Prod.fst).Nodup) :
    createFileMap (multiplexEncode entries) = .ok (appendNL entries) := by
  rcases List.eq_nil_or_concat entries with h | ⟨init, ⟨k, c⟩, heq⟩
  · exact absurd h hne
  rw [List.concat_eq_append] at heq
  subst heq
  have hk : pathOk k := (hcond (k, c) (by simp)).1
  have hc : contentOk c := (hcond (k, c) (by simp)).2
  rw [multiplexEncode_concat init k c hk hc.2.2]
  have htest : (markerScan (rawAll init ++ markerLine k ++
      (if c = [] then [] else '\n' :: c))).isSome = true := by
    cases init with
    | nil =>
      simp only [rawAll, List.map_nil, List.flatten_nil, List.nil_append]
      rw [markerScan_markerLine k _ (pathOk_head k hk) hk.2.1]
      rfl
    | cons e0 t0 =>
      have he0 := hcond e0 (by simp)
      rw [rawAll_cons]
      rw [show blockRaw e0 ++ rawAll t0 ++ markerLine k ++
          (if c = [] then [] else '\n' :: c) =
          markerLine e0.1 ++ ('\n' :: (e0.2 ++ jstr "\n\n" ++
            (rawAll t0 ++ markerLine k ++ (if c = [] then [] else '\n' :: c)))) from by
        simp [blockRaw, List.append_assoc]]
      rw [markerScan_markerLine e0.1 _ (pathOk_head e0.1 he0.1) he0.1.2.1]
      rfl
  unfold createFileMap
  rw [if_pos htest]
  congr 1
  rw [lines_of_stream init k c (fun x hx => hcond x (by simp [hx])) hk hc]
  rw [fmLoop_stream (init ++ [(k, c)]) none [] [] (by simp) hcond hnodup
    (by intro f hf; exact absurd hf (by simp [finalizePrev]))]
  rfl

/-- Witness for C1 (amended): two concrete files decode back with the
first content gaining a trailing newline. -/
theorem claim1_roundtrip_amended_witness :
    createFileMap (multiplexEncode
        [(jstr "/a.ts", jstr "hello"), (jstr "/b.ts", jstr "world")]) =
      .ok (appendNL [(jstr "/a.ts", jstr "hello"), (jstr "/b.ts", jstr "world")]) :=
  claim1_roundtrip_amended [(jstr "/a.ts", jstr "hello"), (jstr "/b.ts", jstr "world")]
    (by decide) (by decide) (by decide)

/-- Counterexample to C1 as frozen: the map `{/a ↦ x, /b ↦ y}` satisfies
every condition of the claim (normalized marker-free keys, plain contents),
yet decode∘encode maps `/a` to `"x\n"`, not `"x"` — the round trip is not
exact. -/
theorem claim1_roundtrip_counterexample :
    (pathOk (jstr "/a") ∧ contentOk (jstr "x")) ∧
    (pathOk (jstr "/b") ∧ contentOk (jstr "y")) ∧
    ([(jstr "/a", jstr "x"), (jstr "/b", jstr "y")].map Prod.fst).Nodup ∧
    createFileMap (multiplexEncode [(jstr "/a", jstr "x"), (jstr "/b", jstr "y")]) =
      .ok [(jstr "/a", jstr "x\n"), (jstr "/b", jstr "y")] ∧
    ([(jstr "/a", jstr "x\n"), (jstr "/b", jstr "y")] :
      List (JStr × JStr)) ≠ [(jstr "/a", jstr "x"), (jstr "/b", jstr "y")] :=
  ⟨by decide, by decide, by decide, rfl, by decide⟩
